import Mathlib

/-!
Verification of the SemanticVersioner program (src/main.py) against its
specification. The Python source is shallowly embedded below: pure helpers
become Lean functions, the git backend (tags, merge bases, commit ranges) is
an explicit `Repo` snapshot, and Python exceptions become `Option`/`Except`
results. The `semver` library operations used by the program
(`Version.parse`, comparison, `bump_*`, `replace`, `str`) are embedded
faithfully from that library's behavior.
-/

/-! ## Characters and decimal digits -/

/-- Decimal value of a list of ASCII digit characters, as Python `int` parses
a digit string (leading zeros allowed). -/
def digitsVal (ds : List Char) : Nat :=
  ds.foldl (fun a c => a * 10 + (c.toNat - 48)) 0

/-- Decimal digit character for `d < 10`. -/
def digitChar10 (d : Nat) : Char := Char.ofNat (48 + d)

/-- Division-by-ten recursion with a fuel bound (any fuel above the value
itself suffices), kept structural so the kernel can evaluate it. -/
def natToDigitsGo : Nat → Nat → List Char
  | 0, _ => []
  | fuel + 1, n =>
    if n < 10 then [digitChar10 n]
    else natToDigitsGo fuel (n / 10) ++ [digitChar10 (n % 10)]

/-- Decimal digit list of a natural number, most significant first, as
Python `str(n)` renders it. -/
def natToDigits (n : Nat) : List Char := natToDigitsGo (n + 1) n

theorem natToDigitsGo_congr : ∀ {f1 f2 n : Nat}, n < f1 → n < f2 →
    natToDigitsGo f1 n = natToDigitsGo f2 n := by
  intro f1
  induction f1 with
  | zero =>
    intro f2 n h1 h2
    omega
  | succ f ih =>
    intro f2 n h1 h2
    rcases f2 with _ | f2
    · omega
    · simp only [natToDigitsGo]
      split
      · rfl
      · rename_i hn
        congr 1
        exact @ih f2 (n / 10) (by omega) (by omega)

theorem natToDigits_unfold (n : Nat) :
    natToDigits n =
      if n < 10 then [digitChar10 n]
      else natToDigits (n / 10) ++ [digitChar10 (n % 10)] := by
  show natToDigitsGo (n + 1) n = _
  rw [natToDigitsGo]
  split
  · rfl
  · rename_i h
    show natToDigitsGo n (n / 10) ++ _ = natToDigitsGo (n / 10 + 1) (n / 10) ++ _
    congr 1
    exact @natToDigitsGo_congr n (n / 10 + 1) (n / 10) (by omega) (by omega)

/-- String form of a natural number (decimal). -/
def natStr (n : Nat) : String := ⟨natToDigits n⟩

theorem digitsVal_aux (ds : List Char) (a : Nat) :
    ds.foldl (fun a c => a * 10 + (c.toNat - 48)) a ≥ a := by
  induction ds generalizing a with
  | nil => simp
  | cons c cs ih =>
    simp only [List.foldl_cons]
    calc a ≤ a * 10 + (c.toNat - 48) := by omega
    _ ≤ _ := ih _

theorem digitsVal_append (xs : List Char) (c : Char) :
    digitsVal (xs ++ [c]) = 10 * digitsVal xs + (c.toNat - 48) := by
  simp only [digitsVal, List.foldl_append, List.foldl_cons, List.foldl_nil]
  omega

theorem digitChar10_toNat {d : Nat} (h : d < 10) : (digitChar10 d).toNat = 48 + d := by
  interval_cases d <;> decide

theorem digitChar10_isDigit {d : Nat} (h : d < 10) : (digitChar10 d).isDigit = true := by
  interval_cases d <;> decide

theorem digitChar10_inj {d e : Nat} (hd : d < 10) (he : e < 10)
    (h : digitChar10 d = digitChar10 e) : d = e := by
  have := congrArg Char.toNat h
  rw [digitChar10_toNat hd, digitChar10_toNat he] at this
  omega

theorem natToDigits_val (n : Nat) : digitsVal (natToDigits n) = n := by
  induction n using Nat.strong_induction_on with
  | _ n ih =>
    rw [natToDigits_unfold]
    split
    · rename_i h
      simp [digitsVal, digitChar10_toNat h]
    · rename_i h
      rw [digitsVal_append, ih (n / 10) (by omega),
        digitChar10_toNat (Nat.mod_lt _ (by omega))]
      omega

theorem natToDigits_ne_nil (n : Nat) : natToDigits n ≠ [] := by
  rw [natToDigits_unfold]
  split <;> simp

theorem natToDigits_all_digits (n : Nat) : (natToDigits n).all (·.isDigit) = true := by
  induction n using Nat.strong_induction_on with
  | _ n ih =>
    rw [natToDigits_unfold]
    split
    · rename_i h
      simp [digitChar10_isDigit h]
    · rename_i h
      simp only [List.all_append, Bool.and_eq_true]
      exact ⟨ih (n / 10) (by omega),
        by simp [digitChar10_isDigit (Nat.mod_lt _ (by omega))]⟩

theorem natToDigits_head_ne_zero (n : Nat) :
    0 < n → ∀ c cs, natToDigits n = c :: cs → c ≠ '0' := by
  induction n using Nat.strong_induction_on with
  | _ n ih =>
    intro hpos c cs heq
    rw [natToDigits_unfold] at heq
    split at heq
    · rename_i hlt
      simp only [List.cons.injEq] at heq
      intro hc
      have h1 : (digitChar10 n).toNat = 48 + n := digitChar10_toNat hlt
      rw [heq.1, hc] at h1
      have h0 : ('0').toNat = 48 := by decide
      omega
    · rename_i hge
      rcases hh : natToDigits (n / 10) with _ | ⟨c0, cs0⟩
      · exact absurd hh (natToDigits_ne_nil _)
      · rw [hh] at heq
        simp only [List.cons_append, List.cons.injEq] at heq
        rw [← heq.1]
        exact ih (n / 10) (by omega) (by omega) c0 cs0 hh

theorem char_toNat_inj {c d : Char} (h : c.toNat = d.toNat) : c = d := by
  apply Char.ext
  exact UInt32.toNat.inj h

theorem char_isDigit_bounds {c : Char} (h : c.isDigit = true) :
    48 ≤ c.toNat ∧ c.toNat ≤ 57 := by
  simp [Char.isDigit] at h
  exact h

theorem digitChar10_of_digit {c : Char} (h : c.isDigit = true) :
    digitChar10 (c.toNat - 48) = c := by
  have hb := char_isDigit_bounds h
  apply char_toNat_inj
  rw [digitChar10_toNat (by omega)]
  omega

/-- Canonical decimal digit string as in the semver grammar `0|[1-9]\d*`:
nonempty, all digits, no leading zero. -/
def canonicalNumB (ds : List Char) : Bool :=
  !ds.isEmpty && ds.all (·.isDigit) && (ds == ['0'] || ds.headD '0' != '0')

theorem digitsVal_pos {y : Char} {ys : List Char} (hd : y.isDigit = true)
    (hne : y ≠ '0') : 1 ≤ digitsVal (y :: ys) := by
  have hb := char_isDigit_bounds hd
  have h0 : ('0').toNat = 48 := by decide
  have hy : 49 ≤ y.toNat := by
    rcases Nat.lt_or_ge y.toNat 49 with h | h
    · exact absurd (char_toNat_inj (by omega)) hne
    · exact h
  simp only [digitsVal, List.foldl_cons]
  calc 1 ≤ 0 * 10 + (y.toNat - 48) := by omega
  _ ≤ _ := digitsVal_aux _ _

theorem canonicalNumB_cons {y : Char} {ys : List Char} (h : canonicalNumB (y :: ys) = true) :
    y.isDigit = true ∧ ys.all (·.isDigit) = true ∧ (ys = [] ∨ y ≠ '0') := by
  simp only [canonicalNumB, Bool.and_eq_true, Bool.or_eq_true, List.all_cons,
    List.isEmpty_cons, Bool.not_false, beq_iff_eq, bne_iff_ne, List.headD_cons] at h
  obtain ⟨⟨-, h1, h2⟩, h3⟩ := h
  refine ⟨h1, h2, ?_⟩
  rcases ys with _ | ⟨z, zs⟩
  · exact Or.inl rfl
  · right
    rcases h3 with h3 | h3
    · simp at h3
    · exact h3

theorem canonicalNumB_front {xs : List Char} {c : Char}
    (hx : xs ≠ []) (h : canonicalNumB (xs ++ [c]) = true) :
    canonicalNumB xs = true ∧ c.isDigit = true := by
  rcases xs with _ | ⟨y, ys⟩
  · exact absurd rfl hx
  · rw [List.cons_append] at h
    have h' := canonicalNumB_cons h
    have hyne : y ≠ '0' := by
      rcases h'.2.2 with h0 | h0
      · simp at h0
      · exact h0
    have hall := h'.2.1
    simp only [List.all_append, List.all_cons, List.all_nil, Bool.and_eq_true] at hall
    refine ⟨?_, hall.2.1⟩
    simp only [canonicalNumB, Bool.and_eq_true, Bool.or_eq_true, List.all_cons,
      List.isEmpty_cons, Bool.not_false, beq_iff_eq, bne_iff_ne, List.headD_cons]
    exact ⟨⟨trivial, h'.1, hall.1⟩, Or.inr hyne⟩

theorem natToDigits_digitsVal {ds : List Char} (h : canonicalNumB ds = true) :
    natToDigits (digitsVal ds) = ds := by
  induction ds using List.reverseRecOn with
  | nil => simp [canonicalNumB] at h
  | append_singleton xs c ih =>
    rcases xs with _ | ⟨y, ys⟩
    · simp only [List.nil_append] at h ⊢
      have hc := canonicalNumB_cons h
      have hb := char_isDigit_bounds hc.1
      have hval : digitsVal [c] = c.toNat - 48 := by
        simp [digitsVal]
      rw [hval, natToDigits_unfold]
      split
      · rw [digitChar10_of_digit hc.1]
      · omega
    · have hfront := canonicalNumB_front (by simp) h
      have hcan := hfront.1
      have hcons := canonicalNumB_cons hcan
      have hyne : y ≠ '0' := by
        rcases hcons.2.2 with h0 | h0
        · -- ys = [] and y = '0' would make the whole string "0" ++ digit,
          -- which has a leading zero and is not canonical
          subst h0
          intro hy
          subst hy
          simp [canonicalNumB] at h
        · exact h0
      have hpos : 1 ≤ digitsVal (y :: ys) := digitsVal_pos hcons.1 hyne
      have hb := char_isDigit_bounds hfront.2
      rw [digitsVal_append, natToDigits_unfold]
      split
      · rename_i hlt
        omega
      · rename_i hge
        have hdiv : (10 * digitsVal (y :: ys) + (c.toNat - 48)) / 10 = digitsVal (y :: ys) := by
          omega
        have hmod : (10 * digitsVal (y :: ys) + (c.toNat - 48)) % 10 = c.toNat - 48 := by
          omega
        rw [hdiv, hmod, ih hcan, digitChar10_of_digit hfront.2]

theorem canonical_digits_inj {ds es : List Char} (hd : canonicalNumB ds = true)
    (he : canonicalNumB es = true) (h : digitsVal ds = digitsVal es) : ds = es := by
  rw [← natToDigits_digitsVal hd, ← natToDigits_digitsVal he, h]

/-! ## Splitting and joining on a separator character (Python str.split / join) -/

/-- Prepend a character to the first group of a split result. -/
def consHead (c : Char) : List (List Char) → List (List Char)
  | [] => [[c]]
  | g :: gs => (c :: g) :: gs

/-- Python `s.split(sep)` for a single-character separator. -/
def splitSep (sep : Char) : List Char → List (List Char)
  | [] => [[]]
  | c :: rest => if c = sep then [] :: splitSep sep rest else consHead c (splitSep sep rest)

/-- Python `sep.join(groups)` for a single-character separator. -/
def joinSep (sep : Char) : List (List Char) → List Char
  | [] => []
  | [g] => g
  | g :: g2 :: gs => g ++ sep :: joinSep sep (g2 :: gs)

theorem splitSep_ne_nil (sep : Char) (cs : List Char) : splitSep sep cs ≠ [] := by
  induction cs with
  | nil => simp [splitSep]
  | cons c rest ih =>
    simp only [splitSep]
    split
    · simp
    · rcases h : splitSep sep rest with _ | ⟨g, gs⟩
      · exact absurd h ih
      · simp [consHead]

theorem joinSep_splitSep (sep : Char) (cs : List Char) :
    joinSep sep (splitSep sep cs) = cs := by
  induction cs with
  | nil => simp [splitSep, joinSep]
  | cons c rest ih =>
    simp only [splitSep]
    split
    · rename_i hc
      subst hc
      rcases h : splitSep c rest with _ | ⟨g, gs⟩
      · exact absurd h (splitSep_ne_nil c rest)
      · rw [h] at ih
        simp [joinSep, ih]
    · rcases h : splitSep sep rest with _ | ⟨g, gs⟩
      · exact absurd h (splitSep_ne_nil sep rest)
      · rw [h] at ih
        rcases gs with _ | ⟨g2, gs2⟩
        · simp only [consHead, joinSep] at ih ⊢
          rw [ih]
        · simp only [consHead, joinSep] at ih ⊢
          simp [← ih]

theorem splitSep_no_sep {sep : Char} {cs : List Char} (h : sep ∉ cs) :
    splitSep sep cs = [cs] := by
  induction cs with
  | nil => simp [splitSep]
  | cons c rest ih =>
    simp only [List.mem_cons, not_or] at h
    simp only [splitSep]
    rw [if_neg (by intro hh; exact h.1 hh.symm), ih h.2, consHead]

theorem splitSep_append_sep {sep : Char} {a b : List Char} (h : sep ∉ a) :
    splitSep sep (a ++ sep :: b) = a :: splitSep sep b := by
  induction a with
  | nil => simp [splitSep]
  | cons c rest ih =>
    simp only [List.mem_cons, not_or] at h
    simp only [List.cons_append, splitSep, List.append_eq]
    rw [if_neg (by intro hh; exact h.1 hh.symm), ih h.2, consHead]

theorem joinSep_length (sep : Char) (g : List Char) (gs : List (List Char)) :
    (joinSep sep (g :: gs)).length =
      g.length + ((gs.map List.length).sum + gs.length) := by
  induction gs generalizing g with
  | nil => simp [joinSep]
  | cons g2 gs2 ih =>
    simp only [joinSep, List.length_append, List.length_cons, List.map_cons, List.sum_cons]
    rw [ih g2]
    omega

/-! ## The semver Version data model (python `semver.Version`) -/

structure Version where
  major : Nat
  minor : Nat
  patch : Nat
  prerelease : Option String := none
  build : Option String := none
deriving DecidableEq

/-- Python truthiness of an optional string (`None` and `""` are falsy). -/
def truthy : Option String → Bool
  | some s => s != ""
  | none => false

/-- Identifier characters allowed in prerelease/build identifiers: `[0-9A-Za-z-]`. -/
def isIdentChar (c : Char) : Bool := c.isAlphanum || c == '-'

/-- One prerelease identifier: `0|[1-9]\d*|\d*[a-zA-Z-][0-9a-zA-Z-]*`
(equivalently: nonempty, identifier characters only, and if all digits then
canonical with no leading zero). -/
def validIdent (g : List Char) : Bool :=
  !g.isEmpty && g.all isIdentChar && (!(g.all (·.isDigit)) || canonicalNumB g)

/-- Prerelease string validity: dot-separated valid identifiers. -/
def validPre (cs : List Char) : Bool := (splitSep '.' cs).all validIdent

/-- Build string validity: dot-separated nonempty identifier-char groups. -/
def validBuild (cs : List Char) : Bool :=
  (splitSep '.' cs).all (fun g => !g.isEmpty && g.all isIdentChar)

/-- Faithful embedding of `semver.Version.parse` (strict `major.minor.patch`
grammar with optional `-prerelease` and `+build`, no leading zeros). -/
def parseVC (cs : List Char) : Option Version :=
  let (dMaj, r1) := cs.span (·.isDigit)
  if canonicalNumB dMaj then
    match r1 with
    | '.' :: r2 =>
      let (dMin, r3) := r2.span (·.isDigit)
      if canonicalNumB dMin then
        match r3 with
        | '.' :: r4 =>
          let (dPat, r5) := r4.span (·.isDigit)
          if canonicalNumB dPat then
            match r5 with
            | [] => some ⟨digitsVal dMaj, digitsVal dMin, digitsVal dPat, none, none⟩
            | '-' :: r6 =>
              let preCs := r6.takeWhile (· ≠ '+')
              let rest := r6.dropWhile (· ≠ '+')
              if validPre preCs then
                match rest with
                | [] =>
                  some ⟨digitsVal dMaj, digitsVal dMin, digitsVal dPat, some ⟨preCs⟩, none⟩
                | _ :: bCs =>
                  if validBuild bCs then
                    some ⟨digitsVal dMaj, digitsVal dMin, digitsVal dPat, some ⟨preCs⟩,
                      some ⟨bCs⟩⟩
                  else none
              else none
            | '+' :: bCs =>
              if validBuild bCs then
                some ⟨digitsVal dMaj, digitsVal dMin, digitsVal dPat, none, some ⟨bCs⟩⟩
              else none
            | _ => none
          else none
        | _ => none
      else none
    | _ => none
  else none

/-- Wrapper: `semver.Version.parse` on a string. -/
def parseVersion (s : String) : Option Version := parseVC s.data

/-- Python `str(version)`: `major.minor.patch[-prerelease][+build]`. -/
def versionToString (v : Version) : String :=
  ⟨natToDigits v.major ++ '.' :: natToDigits v.minor ++ '.' :: natToDigits v.patch
    ++ (if truthy v.prerelease then '-' :: (v.prerelease.getD "").data else [])
    ++ (if truthy v.build then '+' :: (v.build.getD "").data else [])⟩

/-- A version whose prerelease (when present) consists of valid identifiers.
Every version produced by `parseVC` satisfies this. -/
def ValidV (v : Version) : Prop := ∀ p, v.prerelease = some p → validPre p.data = true

theorem parseVC_valid {cs : List Char} {v : Version} (h : parseVC cs = some v) :
    ValidV v := by
  simp only [parseVC] at h
  iterate 10 (all_goals try split at h)
  all_goals first
    | exact Option.noConfusion h
    | (obtain rfl := Option.some.inj h
       intro p hp
       first
         | exact Option.noConfusion hp
         | (obtain rfl := (Option.some.inj hp).symm
            assumption))

/-! ## Enumerations from src/main.py -/

inductive CommitType
  | FEATURE
  | FIX
  | OTHER
deriving DecidableEq

inductive VersionUpdateEnum
  | PATCH
  | MINOR
  | MAJOR
deriving DecidableEq

/-- IntEnum value, used for the `>` comparison in `_get_version_update_type`. -/
def VersionUpdateEnum.val : VersionUpdateEnum → Nat
  | .PATCH => 0
  | .MINOR => 1
  | .MAJOR => 2

inductive DevVersionStyle
  | INCREMENTING
  | SEMANTIC
deriving DecidableEq

/-! ## Version bumping (semver bump operations as used by the program) -/

/-- Model of `SemanticVersioner._bump_version`: dispatch to semver `bump_patch` /
`bump_minor` / `bump_major`, each of which clears prerelease and build.
The Python `else` branch (return unchanged) is unreachable: the IntEnum has
exactly the three members matched here. -/
def bumpVersion (previousVersion : Version) (updateType : VersionUpdateEnum) : Version :=
  match updateType with
  | .PATCH => ⟨previousVersion.major, previousVersion.minor, previousVersion.patch + 1,
      none, none⟩
  | .MINOR => ⟨previousVersion.major, previousVersion.minor + 1, 0, none, none⟩
  | .MAJOR => ⟨previousVersion.major + 1, 0, 0, none, none⟩

/-- semver `_increment_string`: increment the trailing run of digits, if any
(the regex `(?:[^\d]|^)(\d+)$` captures exactly that run). -/
def incrementString (s : String) : String :=
  let rd := s.data.reverse.takeWhile (·.isDigit)
  if rd.isEmpty then s
  else ⟨(s.data.reverse.dropWhile (·.isDigit)).reverse ++ natToDigits (digitsVal rd.reverse + 1)⟩

/-- semver `Version.bump_prerelease(token)` for a string token (the program
always passes the dev suffix, a `str`, so the `token is None` branch never
runs). Build metadata is cleared by the `cls(...)` constructor call. -/
def bumpPrerelease (v : Version) (token : String) : Version :=
  let pre : String :=
    match v.prerelease with
    | some p => p
    | none => if token = "" then "0" else token ++ ".0"
  ⟨v.major, v.minor, v.patch, some (incrementString pre), none⟩

/-- semver `Version.replace(prerelease=p)`: build and numeric parts kept. -/
def withPre (v : Version) (p : String) : Version :=
  ⟨v.major, v.minor, v.patch, some p, v.build⟩

/-! ## semver comparison (`Version.compare` / `_nat_cmp`) -/

/-- Nat comparison as an `Ordering`. -/
def cmpN (a b : Nat) : Ordering :=
  if a < b then .lt else if a = b then .eq else .gt

/-- Python string comparison (lexicographic on code points). -/
def cmpStrL : List Char → List Char → Ordering
  | [], [] => .eq
  | [], _ :: _ => .lt
  | _ :: _, [] => .gt
  | a :: as, b :: bs =>
    match cmpN a.toNat b.toNat with
    | .eq => cmpStrL as bs
    | o => o

/-- Conversion step of `_nat_cmp`: an identifier is an int if it is all digits, else a
string. -/
def convertId (g : List Char) : Sum Nat (List Char) :=
  if !g.isEmpty && g.all (·.isDigit) then .inl (digitsVal g) else .inr g

/-- Identifier comparison of `_nat_cmp`: ints numerically, int < string, strings
lexicographically. -/
def cmpId : Sum Nat (List Char) → Sum Nat (List Char) → Ordering
  | .inl a, .inl b => cmpN a b
  | .inl _, .inr _ => .lt
  | .inr _, .inl _ => .gt
  | .inr a, .inr b => cmpStrL a b

/-- The zip loop of `_nat_cmp`: compare pairwise, ignore length overhang. -/
def zipCmp : List (Sum Nat (List Char)) → List (Sum Nat (List Char)) → Ordering
  | a :: as, b :: bs =>
    match cmpId a b with
    | .eq => zipCmp as bs
    | o => o
  | _, _ => .eq

/-- Key splitting of `_nat_cmp`: split on dots and convert each identifier. -/
def preParts (cs : List Char) : List (Sum Nat (List Char)) :=
  (splitSep '.' cs).map convertId

/-- semver `_nat_cmp`: zip-compare converted identifiers, then tie-break on
raw string length. -/
def natCmpL (a b : List Char) : Ordering :=
  match zipCmp (preParts a) (preParts b) with
  | .eq => cmpN a.length b.length
  | o => o

/-- Characters of the prerelease (Python `self.prerelease or ""`). -/
def preStr (o : Option String) : List Char := (o.getD "").data

/-- Numeric-triple part of semver `compare` (tuple comparison). -/
def cmp3 (x y : Version) : Ordering :=
  match cmpN x.major y.major with
  | .eq =>
    match cmpN x.minor y.minor with
    | .eq => cmpN x.patch y.patch
    | o => o
  | o => o

/-- Prerelease part of semver `compare`: `_nat_cmp` result, overridden so a
missing (falsy) prerelease sorts above a present one. -/
def preCmp (x y : Version) : Ordering :=
  match natCmpL (preStr x.prerelease) (preStr y.prerelease) with
  | .eq => .eq
  | rccmp =>
    if !truthy x.prerelease then .gt
    else if !truthy y.prerelease then .lt
    else rccmp

/-- semver `Version.compare` (build metadata ignored). -/
def vcmp (x y : Version) : Ordering :=
  match cmp3 x y with
  | .eq => preCmp x y
  | o => o

theorem cmpN_refl (a : Nat) : cmpN a a = .eq := by simp [cmpN]

theorem cmpN_swap (a b : Nat) : cmpN a b = (cmpN b a).swap := by
  unfold cmpN
  rcases Nat.lt_trichotomy a b with h | h | h
  · rw [if_pos h, if_neg (by omega), if_neg (by omega)]
    rfl
  · rw [if_neg (by omega), if_pos h, if_neg (by omega), if_pos h.symm]
    rfl
  · rw [if_neg (by omega), if_neg (by omega), if_pos h]
    rfl

theorem cmpN_eq_iff {a b : Nat} : cmpN a b = .eq ↔ a = b := by
  unfold cmpN
  constructor
  · intro h
    split at h
    · exact absurd h (by simp)
    · split at h
      · assumption
      · exact absurd h (by simp)
  · intro h
    rw [if_neg (by omega), if_pos h]

theorem cmpN_lt_iff {a b : Nat} : cmpN a b = .lt ↔ a < b := by
  unfold cmpN
  constructor
  · intro h
    split at h
    · assumption
    · split at h <;> exact absurd h (by simp)
  · intro h
    rw [if_pos h]

theorem cmpN_lt_trans {a b c : Nat} (h1 : cmpN a b = .lt) (h2 : cmpN b c = .lt) :
    cmpN a c = .lt := by
  rw [cmpN_lt_iff] at *
  omega

theorem cmpStrL_refl (a : List Char) : cmpStrL a a = .eq := by
  induction a with
  | nil => rfl
  | cons c cs ih => simp [cmpStrL, cmpN_refl, ih]

theorem cmpStrL_swap (a b : List Char) : cmpStrL a b = (cmpStrL b a).swap := by
  induction a generalizing b with
  | nil => rcases b with _ | ⟨y, ys⟩ <;> rfl
  | cons x xs ih =>
    rcases b with _ | ⟨y, ys⟩
    · rfl
    · simp only [cmpStrL]
      rw [cmpN_swap x.toNat y.toNat]
      rcases h : cmpN y.toNat x.toNat with _ | _ | _ <;> simp [Ordering.swap, ih ys]

theorem cmpStrL_eq_iff {a b : List Char} : cmpStrL a b = .eq ↔ a = b := by
  induction a generalizing b with
  | nil =>
    rcases b with _ | ⟨y, ys⟩
    · simp [cmpStrL]
    · simp [cmpStrL]
  | cons x xs ih =>
    rcases b with _ | ⟨y, ys⟩
    · simp [cmpStrL]
    · simp only [cmpStrL]
      rcases h : cmpN x.toNat y.toNat with _ | _ | _
      · simp only [List.cons.injEq]
        constructor
        · intro hh
          exact absurd hh (by simp)
        · rintro ⟨h1, -⟩
          rw [h1, cmpN_refl] at h
          exact absurd h (by simp)
      · rw [ih]
        have hxy : x = y := char_toNat_inj (cmpN_eq_iff.mp h)
        simp [hxy]
      · simp only [List.cons.injEq]
        constructor
        · intro hh
          exact absurd hh (by simp)
        · rintro ⟨h1, -⟩
          rw [h1, cmpN_refl] at h
          exact absurd h (by simp)

theorem cmpStrL_lt_trans {a b c : List Char} (h1 : cmpStrL a b = .lt)
    (h2 : cmpStrL b c = .lt) : cmpStrL a c = .lt := by
  induction a generalizing b c with
  | nil =>
    rcases b with _ | ⟨y, ys⟩
    · exact absurd h1 (by simp [cmpStrL])
    · rcases c with _ | ⟨z, zs⟩
      · exact absurd h2 (by simp [cmpStrL])
      · simp [cmpStrL]
  | cons x xs ih =>
    rcases b with _ | ⟨y, ys⟩
    · exact absurd h1 (by simp [cmpStrL])
    · rcases c with _ | ⟨z, zs⟩
      · exact absurd h2 (by simp [cmpStrL])
      · simp only [cmpStrL] at h1 h2 ⊢
        rcases hxy : cmpN x.toNat y.toNat with _ | _ | _ <;>
          rcases hyz : cmpN y.toNat z.toNat with _ | _ | _ <;>
            rw [hxy] at h1 <;> rw [hyz] at h2
        · rw [cmpN_lt_trans hxy hyz]
        · have hxz : cmpN x.toNat z.toNat = .lt := by
            rw [← cmpN_eq_iff.mp hyz]
            exact hxy
          rw [hxz]
        · exact Ordering.noConfusion h2
        · have hxz : cmpN x.toNat z.toNat = .lt := by
            rw [cmpN_eq_iff.mp hxy]
            exact hyz
          rw [hxz]
        · have hxz : cmpN x.toNat z.toNat = .eq := by
            rw [cmpN_eq_iff] at hxy hyz ⊢
            omega
          rw [hxz]
          exact ih h1 h2
        · exact Ordering.noConfusion h2
        · exact Ordering.noConfusion h1
        · exact Ordering.noConfusion h1
        · exact Ordering.noConfusion h1

theorem cmpId_refl (a : Sum Nat (List Char)) : cmpId a a = .eq := by
  rcases a with a | a
  · simp [cmpId, cmpN_refl]
  · simp [cmpId, cmpStrL_refl]

theorem cmpId_swap (a b : Sum Nat (List Char)) : cmpId a b = (cmpId b a).swap := by
  rcases a with a | a <;> rcases b with b | b
  · exact cmpN_swap a b
  · rfl
  · rfl
  · exact cmpStrL_swap a b

theorem cmpId_eq_iff {a b : Sum Nat (List Char)} : cmpId a b = .eq ↔ a = b := by
  rcases a with a | a <;> rcases b with b | b
  · simp [cmpId, cmpN_eq_iff]
  · simp [cmpId]
  · simp [cmpId]
  · simp [cmpId, cmpStrL_eq_iff]

theorem cmpId_lt_trans {a b c : Sum Nat (List Char)} (h1 : cmpId a b = .lt)
    (h2 : cmpId b c = .lt) : cmpId a c = .lt := by
  rcases a with a | a <;> rcases b with b | b <;> rcases c with c | c <;>
    simp only [cmpId] at h1 h2 ⊢
  all_goals first
    | rfl
    | exact Ordering.noConfusion h1
    | exact Ordering.noConfusion h2
    | exact cmpN_lt_trans h1 h2
    | exact cmpStrL_lt_trans h1 h2

theorem zipCmp_refl (l : List (Sum Nat (List Char))) : zipCmp l l = .eq := by
  induction l with
  | nil => rfl
  | cons a as ih => simp [zipCmp, cmpId_refl, ih]

theorem zipCmp_swap (a b : List (Sum Nat (List Char))) : zipCmp a b = (zipCmp b a).swap := by
  induction a generalizing b with
  | nil => rcases b with _ | ⟨y, ys⟩ <;> rfl
  | cons x xs ih =>
    rcases b with _ | ⟨y, ys⟩
    · rfl
    · simp only [zipCmp]
      rw [cmpId_swap x y]
      rcases h : cmpId y x with _ | _ | _ <;> simp [Ordering.swap, ih ys]

/-- Full lexicographic comparison on identifier lists: unlike the zip loop,
a strict prefix is smaller. On valid prerelease strings `_nat_cmp` coincides
with this. -/
def lexCmp : List (Sum Nat (List Char)) → List (Sum Nat (List Char)) → Ordering
  | [], [] => .eq
  | [], _ :: _ => .lt
  | _ :: _, [] => .gt
  | a :: as, b :: bs =>
    match cmpId a b with
    | .eq => lexCmp as bs
    | o => o

theorem lexCmp_eq_iff {a b : List (Sum Nat (List Char))} : lexCmp a b = .eq ↔ a = b := by
  induction a generalizing b with
  | nil => rcases b with _ | ⟨y, ys⟩ <;> simp [lexCmp]
  | cons x xs ih =>
    rcases b with _ | ⟨y, ys⟩
    · simp [lexCmp]
    · simp only [lexCmp]
      rcases h : cmpId x y with _ | _ | _
      · simp only [List.cons.injEq]
        constructor
        · intro hh
          exact absurd hh (by simp)
        · rintro ⟨h1, -⟩
          rw [h1, cmpId_refl] at h
          exact absurd h (by simp)
      · have hxy : x = y := cmpId_eq_iff.mp h
        rw [ih]
        simp [hxy]
      · simp only [List.cons.injEq]
        constructor
        · intro hh
          exact absurd hh (by simp)
        · rintro ⟨h1, -⟩
          rw [h1, cmpId_refl] at h
          exact absurd h (by simp)

theorem lexCmp_swap (a b : List (Sum Nat (List Char))) : lexCmp a b = (lexCmp b a).swap := by
  induction a generalizing b with
  | nil => rcases b with _ | ⟨y, ys⟩ <;> rfl
  | cons x xs ih =>
    rcases b with _ | ⟨y, ys⟩
    · rfl
    · simp only [lexCmp]
      rw [cmpId_swap x y]
      rcases h : cmpId y x with _ | _ | _ <;> simp [Ordering.swap, ih ys]

theorem lexCmp_lt_trans {a b c : List (Sum Nat (List Char))} (h1 : lexCmp a b = .lt)
    (h2 : lexCmp b c = .lt) : lexCmp a c = .lt := by
  induction a generalizing b c with
  | nil =>
    rcases b with _ | ⟨y, ys⟩
    · exact absurd h1 (by simp [lexCmp])
    · rcases c with _ | ⟨z, zs⟩
      · exact absurd h2 (by simp [lexCmp])
      · simp [lexCmp]
  | cons x xs ih =>
    rcases b with _ | ⟨y, ys⟩
    · exact absurd h1 (by simp [lexCmp])
    · rcases c with _ | ⟨z, zs⟩
      · exact absurd h2 (by simp [lexCmp])
      · simp only [lexCmp] at h1 h2 ⊢
        rcases hxy : cmpId x y with _ | _ | _ <;>
          rcases hyz : cmpId y z with _ | _ | _ <;>
            rw [hxy] at h1 <;> rw [hyz] at h2
        · rw [cmpId_lt_trans hxy hyz]
        · have hxz : cmpId x z = .lt := by
            rw [← cmpId_eq_iff.mp hyz]
            exact hxy
          rw [hxz]
        · exact Ordering.noConfusion h2
        · have hxz : cmpId x z = .lt := by
            rw [← cmpId_eq_iff.mp hxy] at hyz
            exact hyz
          rw [hxz]
        · have hxz : cmpId x z = .eq := by
            rw [cmpId_eq_iff.mp hxy, cmpId_eq_iff.mp hyz, cmpId_refl]
          rw [hxz]
          exact ih h1 h2
        · exact Ordering.noConfusion h2
        · exact Ordering.noConfusion h1
        · exact Ordering.noConfusion h1
        · exact Ordering.noConfusion h1

theorem zipCmp_ne_eq_lexCmp {a b : List (Sum Nat (List Char))} {o : Ordering}
    (h : zipCmp a b = o) (hne : o ≠ .eq) : lexCmp a b = o := by
  induction a generalizing b with
  | nil =>
    rcases b with _ | ⟨y, ys⟩
    · exact absurd h.symm (by simpa using hne)
    · exact absurd h.symm (by simpa using hne)
  | cons x xs ih =>
    rcases b with _ | ⟨y, ys⟩
    · exact absurd h.symm (by simpa [zipCmp] using hne)
    · simp only [zipCmp] at h
      simp only [lexCmp]
      rcases hxy : cmpId x y with _ | _ | _ <;> rw [hxy] at h
      · exact h
      · exact ih h
      · exact h

theorem zipCmp_eq_shorter_lexCmp {a b : List (Sum Nat (List Char))}
    (h : zipCmp a b = .eq) (hlen : a.length < b.length) : lexCmp a b = .lt := by
  induction a generalizing b with
  | nil =>
    rcases b with _ | ⟨y, ys⟩
    · simp at hlen
    · simp [lexCmp]
  | cons x xs ih =>
    rcases b with _ | ⟨y, ys⟩
    · simp at hlen
    · simp only [zipCmp] at h
      simp only [lexCmp]
      rcases hxy : cmpId x y with _ | _ | _ <;> rw [hxy] at h
      all_goals first
        | exact Ordering.noConfusion h
        | exact ih h (by simpa using hlen)

/-! ## `_nat_cmp` on valid prerelease strings -/

theorem validIdent_ne_nil {g : List Char} (h : validIdent g = true) : g ≠ [] := by
  simp only [validIdent, Bool.and_eq_true, Bool.not_eq_true', List.isEmpty_eq_false] at h
  exact h.1.1

theorem convertId_inl {g : List Char} {n : Nat} (h : convertId g = .inl n) :
    (!g.isEmpty && g.all (·.isDigit)) = true ∧ digitsVal g = n := by
  simp only [convertId] at h
  split at h
  · simp only [Sum.inl.injEq] at h
    constructor
    · assumption
    · exact h
  · exact Sum.noConfusion h

theorem convertId_inr {g k : List Char} (h : convertId g = .inr k) :
    g = k ∧ (!g.isEmpty && g.all (·.isDigit)) = false := by
  simp only [convertId] at h
  split at h
  · exact Sum.noConfusion h
  · simp only [Sum.inr.injEq] at h
    refine ⟨h, ?_⟩
    rename_i hcond
    simp only [Bool.not_eq_true] at hcond
    exact hcond

theorem validIdent_numeric_canonical {g : List Char}
    (hv : validIdent g = true) (hn : (!g.isEmpty && g.all (·.isDigit)) = true) :
    canonicalNumB g = true := by
  simp only [validIdent, Bool.and_eq_true, Bool.or_eq_true, Bool.not_eq_true'] at hv
  rcases hv.2 with h | h
  · simp only [Bool.and_eq_true, Bool.not_eq_true', List.isEmpty_eq_false] at hn
    rw [hn.2] at h
    exact Bool.noConfusion h
  · exact h

theorem cmpId_convert_eq {g k : List Char} (hg : validIdent g = true)
    (hk : validIdent k = true)
    (h : cmpId (convertId g) (convertId k) = .eq) : g = k := by
  rcases hcg : convertId g with n | a <;> rcases hck : convertId k with m | b <;>
    rw [hcg, hck] at h <;> simp only [cmpId] at h
  · have h1 := convertId_inl hcg
    have h2 := convertId_inl hck
    have hnm : n = m := cmpN_eq_iff.mp h
    exact canonical_digits_inj (validIdent_numeric_canonical hg h1.1)
      (validIdent_numeric_canonical hk h2.1) (by rw [h1.2, h2.2, hnm])
  · exact Ordering.noConfusion h
  · exact Ordering.noConfusion h
  · have h1 := convertId_inr hcg
    have h2 := convertId_inr hck
    rw [h1.1, h2.1]
    exact cmpStrL_eq_iff.mp h

theorem zipCmp_eq_prefix {gsa gsb : List (List Char)}
    (ha : ∀ g ∈ gsa, validIdent g = true) (hb : ∀ g ∈ gsb, validIdent g = true)
    (h : zipCmp (gsa.map convertId) (gsb.map convertId) = .eq)
    (hlen : gsa.length ≤ gsb.length) : gsa = gsb.take gsa.length := by
  induction gsa generalizing gsb with
  | nil => simp
  | cons g gs ih =>
    rcases gsb with _ | ⟨k, ks⟩
    · simp at hlen
    · simp only [List.map_cons, zipCmp] at h
      rcases hgk : cmpId (convertId g) (convertId k) with _ | _ | _ <;> rw [hgk] at h
      · exact Ordering.noConfusion h
      · have hg := cmpId_convert_eq (ha g (by simp)) (hb k (by simp)) hgk
        have hrest := ih (fun x hx => ha x (by simp [hx]))
          (fun x hx => hb x (by simp [hx])) h (by simpa using hlen)
        simp only [List.length_cons, List.take_succ_cons]
        rw [← hg, ← hrest]
      · exact Ordering.noConfusion h

theorem joinSep_append_length (sep : Char) (gs1 gs2 : List (List Char))
    (h1 : gs1 ≠ []) (h2 : gs2 ≠ []) :
    (joinSep sep (gs1 ++ gs2)).length =
      (joinSep sep gs1).length + 1 + (joinSep sep gs2).length := by
  induction gs1 with
  | nil => exact absurd rfl h1
  | cons g gs ih =>
    rcases gs with _ | ⟨g1, gs1⟩
    · rcases gs2 with _ | ⟨k, ks⟩
      · exact absurd rfl h2
      · simp only [List.cons_append, List.nil_append, joinSep, List.length_append,
          List.length_cons]
        omega
    · have := ih (by simp)
      simp only [List.cons_append, List.append_eq, joinSep, List.length_append,
        List.length_cons] at this ⊢
      omega

/-- On valid prerelease strings, pairwise-equal converted identifier prefixes
with strictly fewer groups force a strictly shorter raw string. -/
theorem valid_zipEq_len_lt {a b : List Char}
    (ha : validPre a = true) (hb : validPre b = true)
    (h : zipCmp (preParts a) (preParts b) = .eq)
    (hlen : (splitSep '.' a).length < (splitSep '.' b).length) : a.length < b.length := by
  have hva : ∀ g ∈ splitSep '.' a, validIdent g = true := fun g hg =>
    List.all_eq_true.mp ha g hg
  have hvb : ∀ g ∈ splitSep '.' b, validIdent g = true := fun g hg =>
    List.all_eq_true.mp hb g hg
  have hpre := zipCmp_eq_prefix hva hvb h (Nat.le_of_lt hlen)
  have hdrop : (splitSep '.' b).drop (splitSep '.' a).length ≠ [] := by
    intro hnil
    have := congrArg List.length hnil
    simp only [List.length_drop, List.length_nil] at this
    omega
  have hsplit : splitSep '.' b =
      splitSep '.' a ++ (splitSep '.' b).drop (splitSep '.' a).length := by
    conv_lhs => rw [← List.take_append_drop (splitSep '.' a).length (splitSep '.' b)]
    rw [← hpre]
  have hx := joinSep_append_length '.' (splitSep '.' a)
    ((splitSep '.' b).drop (splitSep '.' a).length) (splitSep_ne_nil '.' a) hdrop
  rw [← hsplit, joinSep_splitSep '.' b, joinSep_splitSep '.' a] at hx
  omega

theorem natCmpL_refl (a : List Char) : natCmpL a a = .eq := by
  simp [natCmpL, zipCmp_refl, cmpN_refl]

theorem natCmpL_swap (a b : List Char) : natCmpL a b = (natCmpL b a).swap := by
  unfold natCmpL
  rw [zipCmp_swap]
  rcases h : zipCmp (preParts b) (preParts a) with _ | _ | _ <;>
    simp [Ordering.swap, cmpN_swap a.length b.length]

theorem zipCmp_eq_symm {a b : List (Sum Nat (List Char))}
    (h : zipCmp a b = .eq) : zipCmp b a = .eq := by
  rw [zipCmp_swap] at h
  rcases hz : zipCmp b a with _ | _ | _ <;> rw [hz] at h
  all_goals first
    | rfl
    | exact Ordering.noConfusion h

theorem natCmpL_eq_iff {a b : List Char} (ha : validPre a = true)
    (hb : validPre b = true) : natCmpL a b = .eq ↔ a = b := by
  constructor
  · intro h
    unfold natCmpL at h
    rcases hz : zipCmp (preParts a) (preParts b) with _ | _ | _ <;> rw [hz] at h
    · exact Ordering.noConfusion h
    · have hlen : a.length = b.length := cmpN_eq_iff.mp h
      rcases Nat.lt_trichotomy (splitSep '.' a).length (splitSep '.' b).length
        with hc | hc | hc
      · have := valid_zipEq_len_lt ha hb hz hc
        omega
      · have hpre := zipCmp_eq_prefix
          (fun g hg => List.all_eq_true.mp ha g hg)
          (fun g hg => List.all_eq_true.mp hb g hg) hz (Nat.le_of_eq hc)
        rw [hc, List.take_length] at hpre
        calc a = joinSep '.' (splitSep '.' a) := (joinSep_splitSep '.' a).symm
        _ = joinSep '.' (splitSep '.' b) := by rw [hpre]
        _ = b := joinSep_splitSep '.' b
      · have := valid_zipEq_len_lt hb ha (zipCmp_eq_symm hz) hc
        omega
    · exact Ordering.noConfusion h
  · intro h
    rw [h]
    exact natCmpL_refl b

theorem natCmpL_eq_lexCmp {a b : List Char} (ha : validPre a = true)
    (hb : validPre b = true) :
    natCmpL a b = lexCmp (preParts a) (preParts b) := by
  unfold natCmpL
  rcases hz : zipCmp (preParts a) (preParts b) with _ | _ | _
  · exact (zipCmp_ne_eq_lexCmp hz (by simp)).symm
  · rcases Nat.lt_trichotomy (splitSep '.' a).length (splitSep '.' b).length
      with hc | hc | hc
    · have hlt := valid_zipEq_len_lt ha hb hz hc
      rw [cmpN_lt_iff.mpr hlt]
      have hpl : (preParts a).length < (preParts b).length := by
        simp only [preParts, List.length_map]
        exact hc
      exact (zipCmp_eq_shorter_lexCmp hz hpl).symm
    · have hpre := zipCmp_eq_prefix
        (fun g hg => List.all_eq_true.mp ha g hg)
        (fun g hg => List.all_eq_true.mp hb g hg) hz (Nat.le_of_eq hc)
      rw [hc, List.take_length] at hpre
      have hab : a = b := by
        calc a = joinSep '.' (splitSep '.' a) := (joinSep_splitSep '.' a).symm
        _ = joinSep '.' (splitSep '.' b) := by rw [hpre]
        _ = b := joinSep_splitSep '.' b
      subst hab
      rw [cmpN_refl, (@lexCmp_eq_iff (preParts a) (preParts a)).mpr rfl]
    · have hzs : zipCmp (preParts b) (preParts a) = .eq := zipCmp_eq_symm hz
      have hlt := valid_zipEq_len_lt hb ha hzs hc
      have hgt : cmpN a.length b.length = .gt := by
        rw [cmpN_swap, cmpN_lt_iff.mpr hlt]
        decide
      rw [hgt]
      have hpl : (preParts b).length < (preParts a).length := by
        simp only [preParts, List.length_map]
        exact hc
      have hlex : lexCmp (preParts b) (preParts a) = .lt :=
        zipCmp_eq_shorter_lexCmp hzs hpl
      rw [lexCmp_swap, hlex]
      decide
  · exact (zipCmp_ne_eq_lexCmp hz (by simp)).symm

theorem natCmpL_lt_trans {a b c : List Char} (ha : validPre a = true)
    (hb : validPre b = true) (hc : validPre c = true)
    (h1 : natCmpL a b = .lt) (h2 : natCmpL b c = .lt) : natCmpL a c = .lt := by
  rw [natCmpL_eq_lexCmp ha hb] at h1
  rw [natCmpL_eq_lexCmp hb hc] at h2
  rw [natCmpL_eq_lexCmp ha hc]
  exact lexCmp_lt_trans h1 h2

/-! ## Properties of the full version comparison -/

theorem cmp3_refl (x : Version) : cmp3 x x = .eq := by
  simp [cmp3, cmpN_refl]

theorem cmp3_swap (x y : Version) : cmp3 x y = (cmp3 y x).swap := by
  unfold cmp3
  rw [cmpN_swap x.major y.major, cmpN_swap x.minor y.minor, cmpN_swap x.patch y.patch]
  rcases cmpN y.major x.major with _ | _ | _ <;>
    rcases cmpN y.minor x.minor with _ | _ | _ <;> rfl

theorem cmpN_gt_iff {a b : Nat} : cmpN a b = .gt ↔ b < a := by
  unfold cmpN
  constructor
  · intro h
    split at h
    · exact absurd h (by simp)
    · split at h
      · exact absurd h (by simp)
      · omega
  · intro h
    rw [if_neg (by omega), if_neg (by omega)]

theorem cmp3_eq_iff {x y : Version} :
    cmp3 x y = .eq ↔ x.major = y.major ∧ x.minor = y.minor ∧ x.patch = y.patch := by
  unfold cmp3
  rcases h1 : cmpN x.major y.major with _ | _ | _ <;>
    rcases h2 : cmpN x.minor y.minor with _ | _ | _ <;>
      rcases h3 : cmpN x.patch y.patch with _ | _ | _ <;>
        [rw [cmpN_lt_iff] at h1; rw [cmpN_lt_iff] at h1; rw [cmpN_lt_iff] at h1;
         rw [cmpN_lt_iff] at h1; rw [cmpN_lt_iff] at h1; rw [cmpN_lt_iff] at h1;
         rw [cmpN_lt_iff] at h1; rw [cmpN_lt_iff] at h1; rw [cmpN_lt_iff] at h1;
         rw [cmpN_eq_iff] at h1; rw [cmpN_eq_iff] at h1; rw [cmpN_eq_iff] at h1;
         rw [cmpN_eq_iff] at h1; rw [cmpN_eq_iff] at h1; rw [cmpN_eq_iff] at h1;
         rw [cmpN_eq_iff] at h1; rw [cmpN_eq_iff] at h1; rw [cmpN_eq_iff] at h1;
         rw [cmpN_gt_iff] at h1; rw [cmpN_gt_iff] at h1; rw [cmpN_gt_iff] at h1;
         rw [cmpN_gt_iff] at h1; rw [cmpN_gt_iff] at h1; rw [cmpN_gt_iff] at h1;
         rw [cmpN_gt_iff] at h1; rw [cmpN_gt_iff] at h1; rw [cmpN_gt_iff] at h1] <;>
        first
          | (rw [cmpN_lt_iff] at h2) | (rw [cmpN_eq_iff] at h2) | (rw [cmpN_gt_iff] at h2)
  all_goals first
    | (rw [cmpN_lt_iff] at h3) | (rw [cmpN_eq_iff] at h3) | (rw [cmpN_gt_iff] at h3)
  all_goals (
    constructor
    · intro hh
      first
        | (refine ⟨by omega, by omega, by omega⟩)
        | exact absurd hh (by decide)
    · intro hh
      first
        | decide
        | (exfalso; omega))

theorem cmp3_lt_iff {x y : Version} :
    cmp3 x y = .lt ↔ x.major < y.major ∨ x.major = y.major ∧
      (x.minor < y.minor ∨ x.minor = y.minor ∧ x.patch < y.patch) := by
  unfold cmp3
  rcases h1 : cmpN x.major y.major with _ | _ | _ <;>
    rcases h2 : cmpN x.minor y.minor with _ | _ | _ <;>
      rcases h3 : cmpN x.patch y.patch with _ | _ | _
  all_goals first
    | (rw [cmpN_lt_iff] at h1) | (rw [cmpN_eq_iff] at h1) | (rw [cmpN_gt_iff] at h1)
  all_goals first
    | (rw [cmpN_lt_iff] at h2) | (rw [cmpN_eq_iff] at h2) | (rw [cmpN_gt_iff] at h2)
  all_goals first
    | (rw [cmpN_lt_iff] at h3) | (rw [cmpN_eq_iff] at h3) | (rw [cmpN_gt_iff] at h3)
  all_goals (
    constructor
    · intro hh
      first
        | omega
        | exact absurd hh (by decide)
    · intro hh
      first
        | decide
        | (exfalso; omega))

theorem cmp3_lt_trans {x y z : Version} (h1 : cmp3 x y = .lt) (h2 : cmp3 y z = .lt) :
    cmp3 x z = .lt := by
  rw [cmp3_lt_iff] at h1 h2 ⊢
  omega

theorem validV_truthy_validPre {v : Version} (hv : ValidV v)
    (ht : truthy v.prerelease = true) : validPre (preStr v.prerelease) = true := by
  rcases h : v.prerelease with _ | p
  · rw [h] at ht
    exact Bool.noConfusion ht
  · simpa [preStr] using hv p h

theorem truthy_false_preStr {o : Option String} (h : truthy o = false) : preStr o = [] := by
  rcases o with _ | s
  · rfl
  · simp only [truthy, bne_eq_false_iff_eq] at h
    rw [h]
    rfl

theorem validPre_preStr_ne_nil {q : List Char} (hq : validPre q = true) : q ≠ [] := by
  intro hnil
  subst hnil
  simp [validPre, splitSep, validIdent] at hq

theorem natCmpL_nil_valid_ne_eq {q : List Char} (hq : validPre q = true) :
    natCmpL [] q ≠ .eq := by
  rcases hsp : splitSep '.' q with _ | ⟨g, gs⟩
  · exact absurd hsp (splitSep_ne_nil '.' q)
  · have hgval : validIdent g = true :=
      List.all_eq_true.mp hq g (by rw [hsp]; simp)
    have hgne : g ≠ [] := validIdent_ne_nil hgval
    have hhead : cmpId (convertId []) (convertId g) ≠ .eq := by
      rcases hcg : convertId g with n | s
      · rw [show convertId [] = Sum.inr [] from rfl]
        simp [cmpId]
      · rw [show convertId [] = Sum.inr [] from rfl]
        have hgs := (convertId_inr hcg).1
        rcases s with _ | ⟨c, cs⟩
        · exact absurd hgs hgne
        · simp [cmpId, cmpStrL]
    have hpp : preParts [] = [convertId []] := rfl
    have hppq : preParts q = convertId g :: gs.map convertId := by
      unfold preParts
      rw [hsp]
      simp
    unfold natCmpL
    rw [hpp, hppq]
    simp only [zipCmp]
    rcases hc : cmpId (convertId []) (convertId g) with _ | _ | _
    · simp
    · exact absurd hc hhead
    · simp

theorem natCmpL_nil_nil : natCmpL [] [] = .eq := by decide

theorem natCmpL_rev {a b : List Char} {o : Ordering} (h : natCmpL a b = o) :
    natCmpL b a = o.swap := by
  rw [natCmpL_swap b a, h]

theorem preCmp_refl (v : Version) : preCmp v v = .eq := by
  unfold preCmp
  rw [natCmpL_refl]

theorem preCmp_both_falsy {x y : Version} (hx : truthy x.prerelease = false)
    (hy : truthy y.prerelease = false) : preCmp x y = .eq := by
  unfold preCmp
  rw [truthy_false_preStr hx, truthy_false_preStr hy, natCmpL_nil_nil]

theorem preCmp_both_truthy {x y : Version} (hx : truthy x.prerelease = true)
    (hy : truthy y.prerelease = true) :
    preCmp x y = natCmpL (preStr x.prerelease) (preStr y.prerelease) := by
  unfold preCmp
  rcases hn : natCmpL (preStr x.prerelease) (preStr y.prerelease) with _ | _ | _ <;>
    simp [hx, hy]

theorem preCmp_swap (x y : Version) : preCmp x y = (preCmp y x).swap := by
  unfold preCmp
  rcases hn : natCmpL (preStr x.prerelease) (preStr y.prerelease) with _ | _ | _ <;>
    rw [natCmpL_rev hn]
  · rcases htx : truthy x.prerelease <;> rcases hty : truthy y.prerelease
    · rw [truthy_false_preStr htx, truthy_false_preStr hty, natCmpL_nil_nil] at hn
      exact absurd hn (by decide)
    · simp [htx, hty, Ordering.swap]
    · simp [htx, hty, Ordering.swap]
    · simp [htx, hty, Ordering.swap]
  · rfl
  · rcases htx : truthy x.prerelease <;> rcases hty : truthy y.prerelease
    · rw [truthy_false_preStr htx, truthy_false_preStr hty, natCmpL_nil_nil] at hn
      exact absurd hn (by decide)
    · simp [htx, hty, Ordering.swap]
    · simp [htx, hty, Ordering.swap]
    · simp [htx, hty, Ordering.swap]

theorem vcmp_refl (v : Version) : vcmp v v = .eq := by
  unfold vcmp
  rw [cmp3_refl, preCmp_refl]

theorem vcmp_swap (x y : Version) : vcmp x y = (vcmp y x).swap := by
  unfold vcmp
  rw [cmp3_swap x y]
  rcases h : cmp3 y x with _ | _ | _
  · rfl
  · rw [preCmp_swap x y]
    rfl
  · rfl

theorem vcmp_eq_parts {x y : Version} (h : vcmp x y = .eq) :
    cmp3 x y = .eq ∧ preCmp x y = .eq := by
  unfold vcmp at h
  rcases hc : cmp3 x y with _ | _ | _ <;> rw [hc] at h
  · exact Ordering.noConfusion h
  · exact ⟨rfl, h⟩
  · exact Ordering.noConfusion h

theorem preCmp_eq_natCmpL_eq {x y : Version} (h : preCmp x y = .eq) :
    natCmpL (preStr x.prerelease) (preStr y.prerelease) = .eq := by
  unfold preCmp at h
  rcases hn : natCmpL (preStr x.prerelease) (preStr y.prerelease) with _ | _ | _ <;>
    rw [hn] at h
  all_goals first
    | rfl
    | (rcases htx : truthy x.prerelease <;> rcases hty : truthy y.prerelease <;>
        simp [htx, hty] at h)

theorem vcmp_eq_congr {x y : Version} (hvx : ValidV x) (hvy : ValidV y)
    (h : vcmp x y = .eq) : ∀ c, vcmp x c = vcmp y c := by
  obtain ⟨h3, hp⟩ := vcmp_eq_parts h
  obtain ⟨e1, e2, e3⟩ := cmp3_eq_iff.mp h3
  have hn := preCmp_eq_natCmpL_eq hp
  have hts : truthy x.prerelease = truthy y.prerelease ∧
      preStr x.prerelease = preStr y.prerelease := by
    rcases htx : truthy x.prerelease <;> rcases hty : truthy y.prerelease
    · exact ⟨rfl, by rw [truthy_false_preStr htx, truthy_false_preStr hty]⟩
    · rw [truthy_false_preStr htx] at hn
      exact absurd hn (natCmpL_nil_valid_ne_eq (validV_truthy_validPre hvy hty))
    · rw [truthy_false_preStr hty] at hn
      exact absurd (by simpa using natCmpL_rev hn)
        (natCmpL_nil_valid_ne_eq (validV_truthy_validPre hvx htx))
    · exact ⟨rfl, (natCmpL_eq_iff (validV_truthy_validPre hvx htx)
        (validV_truthy_validPre hvy hty)).mp hn⟩
  intro c
  unfold vcmp
  have hc3 : cmp3 x c = cmp3 y c := by
    unfold cmp3
    rw [e1, e2, e3]
  rw [hc3]
  rcases hyc : cmp3 y c with _ | _ | _
  · rfl
  · unfold preCmp
    rw [hts.1, hts.2]
  · rfl

theorem vcmp_lt_cases {x y : Version} (h : vcmp x y = .lt) :
    cmp3 x y = .lt ∨ (cmp3 x y = .eq ∧ preCmp x y = .lt) := by
  unfold vcmp at h
  rcases hc : cmp3 x y with _ | _ | _ <;> rw [hc] at h
  · exact Or.inl rfl
  · exact Or.inr ⟨rfl, h⟩
  · exact Ordering.noConfusion h

theorem preCmp_lt_cases {x y : Version} (h : preCmp x y = .lt) :
    (truthy x.prerelease = true ∧ truthy y.prerelease = false) ∨
    (truthy x.prerelease = true ∧ truthy y.prerelease = true ∧
      natCmpL (preStr x.prerelease) (preStr y.prerelease) = .lt) := by
  rcases htx : truthy x.prerelease <;> rcases hty : truthy y.prerelease
  · rw [preCmp_both_falsy htx hty] at h
    exact absurd h (by decide)
  · exfalso
    unfold preCmp at h
    rcases hn : natCmpL (preStr x.prerelease) (preStr y.prerelease) with _ | _ | _ <;>
      rw [hn] at h <;> simp [htx, hty] at h
  · exact Or.inl ⟨rfl, rfl⟩
  · right
    refine ⟨rfl, rfl, ?_⟩
    rw [preCmp_both_truthy htx hty] at h
    exact h

theorem vcmp_lt_trans {x y z : Version} (hvx : ValidV x) (hvy : ValidV y) (hvz : ValidV z)
    (h1 : vcmp x y = .lt) (h2 : vcmp y z = .lt) : vcmp x z = .lt := by
  rcases vcmp_lt_cases h1 with hc1 | ⟨he1, hp1⟩ <;>
    rcases vcmp_lt_cases h2 with hc2 | ⟨he2, hp2⟩
  · unfold vcmp
    rw [cmp3_lt_trans hc1 hc2]
  · obtain ⟨e1, e2, e3⟩ := cmp3_eq_iff.mp he2
    unfold vcmp
    have hc : cmp3 x z = .lt := by
      unfold cmp3 at hc1 ⊢
      rw [← e1, ← e2, ← e3]
      exact hc1
    rw [hc]
  · obtain ⟨e1, e2, e3⟩ := cmp3_eq_iff.mp he1
    unfold vcmp
    have hc : cmp3 x z = .lt := by
      unfold cmp3 at hc2 ⊢
      rw [e1, e2, e3]
      exact hc2
    rw [hc]
  · obtain ⟨e1, e2, e3⟩ := cmp3_eq_iff.mp he1
    obtain ⟨f1, f2, f3⟩ := cmp3_eq_iff.mp he2
    have hc : cmp3 x z = .eq := cmp3_eq_iff.mpr ⟨e1.trans f1, e2.trans f2, e3.trans f3⟩
    unfold vcmp
    rw [hc]
    rcases preCmp_lt_cases hp1 with ⟨ht1, ht2⟩ | ⟨ht1, ht2, hn1⟩
    · rcases preCmp_lt_cases hp2 with ⟨hs1, hs2⟩ | ⟨hs1, hs2, hn2⟩
      · rw [ht2] at hs1
        exact Bool.noConfusion hs1
      · rw [ht2] at hs1
        exact Bool.noConfusion hs1
    · rcases preCmp_lt_cases hp2 with ⟨hs1, hs2⟩ | ⟨hs1, hs2, hn2⟩
      · unfold preCmp
        rcases hn : natCmpL (preStr x.prerelease) (preStr z.prerelease) with _ | _ | _
        · simp [ht1, hs2]
        · rw [truthy_false_preStr hs2] at hn
          exact absurd (by simpa using natCmpL_rev hn)
            (natCmpL_nil_valid_ne_eq (validV_truthy_validPre hvx ht1))
        · simp [ht1, hs2]
      · have hnl := natCmpL_lt_trans (validV_truthy_validPre hvx ht1)
          (validV_truthy_validPre hvy ht2) (validV_truthy_validPre hvz hs2) hn1 hn2
        unfold preCmp
        rw [hnl]
        simp [ht1, hs2]

theorem vcmp_ge_trans {x y z : Version} (hvx : ValidV x) (hvy : ValidV y) (hvz : ValidV z)
    (h1 : vcmp x y ≠ .lt) (h2 : vcmp y z ≠ .lt) : vcmp x z ≠ .lt := by
  intro hlt
  rcases hxy : vcmp x y with _ | _ | _
  · exact h1 hxy
  · have hcongr := vcmp_eq_congr hvx hvy hxy z
    rw [hcongr] at hlt
    exact h2 hlt
  · have hyx : vcmp y x = .lt := by
      rw [vcmp_swap y x, hxy]
      rfl
    exact h2 (vcmp_lt_trans hvy hvx hvz hyx hlt)

theorem vcmp_total (x y : Version) : vcmp x y ≠ .lt ∨ vcmp y x ≠ .lt := by
  rcases h : vcmp x y with _ | _ | _
  · right
    intro hc
    rw [vcmp_swap y x, h] at hc
    exact Ordering.noConfusion hc
  · left
    simp [h]
  · left
    simp [h]

theorem vcmp_not_lt_not_gt {x y : Version} (h : vcmp x y ≠ .lt) : vcmp y x ≠ .gt := by
  intro hc
  apply h
  rw [vcmp_swap x y, hc]
  rfl

/-! ## Repository snapshot model (git backend as seen by the program) -/

/-- Opaque commit identity. -/
abbrev CommitId := Nat

/-- A git tag: a name bound to one commit. -/
structure Tag where
  name : String
  commit : CommitId
deriving DecidableEq

/-- Snapshot of the git backend used during one invocation: the tag set,
the `merge_base` oracle, and the commit messages (as lists of lines) of
`iter_commits(start..end)` ranges. -/
structure Repo where
  tags : List Tag
  mergeBase : CommitId → CommitId → List CommitId
  rangeMessages : CommitId → CommitId → List (List String)

/-- Model of `SemanticVersioner._version_prefix`. -/
def versionLead : String := "v"

/-- The tag-collection loop of `_get_latest_version`: parse each tag name
after the version prefix (parse failures skip the tag), optionally drop
prereleases. -/
def tagCandidates (repo : Repo) (includePrerelease : Bool) : List (Version × CommitId) :=
  repo.tags.filterMap fun tag =>
    (parseVersion (tag.name.drop versionLead.length)).bind fun version =>
      if truthy version.prerelease && !includePrerelease then none
      else some (version, tag.commit)

/-- Python `sorted(tags, key=version, reverse=True)` modelled as insertion
sort by descending semver comparison. -/
def insertDesc (x : Version × CommitId) :
    List (Version × CommitId) → List (Version × CommitId)
  | [] => [x]
  | y :: ys => if vcmp x.1 y.1 ≠ .lt then x :: y :: ys else y :: insertDesc x ys

def sortDesc : List (Version × CommitId) → List (Version × CommitId)
  | [] => []
  | x :: xs => insertDesc x (sortDesc xs)

/-- The candidate loop of `_get_latest_version`: return the first tag, in
descending version order, whose commit is the unique merge-base of itself and
the target commit. -/
def findVersionTag (repo : Repo) (commit : CommitId) :
    List (Version × CommitId) → Option (Version × CommitId)
  | [] => none
  | (v, tc) :: rest =>
    if repo.mergeBase tc commit = [tc] then some (v, tc)
    else findVersionTag repo commit rest

/-- Model of `SemanticVersioner._get_latest_version` (the Python default for
`include_prerelease` is `True`). Returns `none` where the Python code
returns `(None, None)`. -/
def getLatestVersion (repo : Repo) (commit : CommitId) (includePrerelease : Bool) :
    Option (Version × CommitId) :=
  findVersionTag repo commit (sortDesc (tagCandidates repo includePrerelease))

theorem mem_insertDesc {x a : Version × CommitId} {l : List (Version × CommitId)} :
    a ∈ insertDesc x l ↔ a = x ∨ a ∈ l := by
  induction l with
  | nil => simp [insertDesc]
  | cons y ys ih =>
    unfold insertDesc
    split
    · simp
    · simp only [List.mem_cons, ih]
      tauto

theorem mem_sortDesc {a : Version × CommitId} {l : List (Version × CommitId)} :
    a ∈ sortDesc l ↔ a ∈ l := by
  induction l with
  | nil => simp [sortDesc]
  | cons x xs ih =>
    unfold sortDesc
    rw [mem_insertDesc, ih]
    simp

theorem pairwise_insertDesc {x : Version × CommitId} {l : List (Version × CommitId)}
    (hx : ValidV x.1) (hl : ∀ p ∈ l, ValidV p.1)
    (hp : l.Pairwise (fun a b => vcmp a.1 b.1 ≠ .lt)) :
    (insertDesc x l).Pairwise (fun a b => vcmp a.1 b.1 ≠ .lt) := by
  induction l with
  | nil => simp [insertDesc]
  | cons y ys ih =>
    rw [List.pairwise_cons] at hp
    unfold insertDesc
    split
    · rename_i hxy
      rw [List.pairwise_cons]
      constructor
      · intro p hpmem
        rcases List.mem_cons.mp hpmem with hpy | hpys
        · rw [hpy]
          exact hxy
        · exact vcmp_ge_trans hx (hl y (by simp)) (hl p (by simp [hpys])) hxy
            (hp.1 p hpys)
      · exact List.pairwise_cons.mpr hp
    · rename_i hxy
      rw [List.pairwise_cons]
      constructor
      · intro p hpmem
        rcases mem_insertDesc.mp hpmem with hpx | hpys
        · rw [hpx]
          intro hyx
          have hxy2 : vcmp x.1 y.1 = .lt := not_ne_iff.mp hxy
          rw [vcmp_swap y.1 x.1, hxy2] at hyx
          exact Ordering.noConfusion hyx
        · exact hp.1 p hpys
      · exact ih (fun p hpm => hl p (by simp [hpm])) hp.2

theorem sortDesc_pairwise {l : List (Version × CommitId)} (hl : ∀ p ∈ l, ValidV p.1) :
    (sortDesc l).Pairwise (fun a b => vcmp a.1 b.1 ≠ .lt) := by
  induction l with
  | nil => simp [sortDesc]
  | cons x xs ih =>
    unfold sortDesc
    exact pairwise_insertDesc (hl x (by simp))
      (fun p hpm => hl p (by simp [mem_sortDesc.mp hpm]))
      (ih (fun p hpm => hl p (by simp [hpm])))

theorem findVersionTag_some {repo : Repo} {commit : CommitId}
    {l : List (Version × CommitId)} {v : Version} {tc : CommitId}
    (h : findVersionTag repo commit l = some (v, tc)) :
    (v, tc) ∈ l ∧ repo.mergeBase tc commit = [tc] ∧
    (l.Pairwise (fun a b => vcmp a.1 b.1 ≠ .lt) →
      ∀ p ∈ l, repo.mergeBase p.2 commit = [p.2] → vcmp p.1 v ≠ .gt) := by
  induction l with
  | nil => exact Option.noConfusion h
  | cons w rest ih =>
    rcases w with ⟨wv, wc⟩
    unfold findVersionTag at h
    split at h
    · rename_i hcond
      obtain ⟨hv, hc⟩ : wv = v ∧ wc = tc := by
        have := Option.some.inj h
        exact ⟨congrArg Prod.fst this, congrArg Prod.snd this⟩
      subst hv
      subst hc
      refine ⟨by simp, hcond, ?_⟩
      intro hp p hpmem _
      rcases List.mem_cons.mp hpmem with hph | hpt
      · rw [hph]
        rw [vcmp_refl]
        simp
      · rw [List.pairwise_cons] at hp
        exact vcmp_not_lt_not_gt (hp.1 p hpt)
    · rename_i hcond
      obtain ⟨hmem, hmb, hbest⟩ := ih h
      refine ⟨by simp [hmem], hmb, ?_⟩
      intro hp p hpmem hpcond
      rcases List.mem_cons.mp hpmem with hph | hpt
      · exfalso
        rw [hph] at hpcond
        exact hcond hpcond
      · rw [List.pairwise_cons] at hp
        exact hbest hp.2 p hpt hpcond

theorem findVersionTag_none {repo : Repo} {commit : CommitId}
    {l : List (Version × CommitId)} (h : findVersionTag repo commit l = none) :
    ∀ p ∈ l, repo.mergeBase p.2 commit ≠ [p.2] := by
  induction l with
  | nil => simp
  | cons w rest ih =>
    rcases w with ⟨wv, wc⟩
    unfold findVersionTag at h
    split at h
    · exact Option.noConfusion h
    · rename_i hcond
      intro p hpmem
      rcases List.mem_cons.mp hpmem with hph | hpt
      · rw [hph]
        exact hcond
      · exact ih h p hpt

theorem mem_tagCandidates {repo : Repo} {inc : Bool} {v : Version} {c : CommitId} :
    (v, c) ∈ tagCandidates repo inc ↔
    ∃ tag ∈ repo.tags, parseVersion (tag.name.drop versionLead.length) = some v ∧
      tag.commit = c ∧ (truthy v.prerelease && !inc) = false := by
  unfold tagCandidates
  rw [List.mem_filterMap]
  constructor
  · rintro ⟨tag, htag, hf⟩
    refine ⟨tag, htag, ?_⟩
    rcases hp : parseVersion (tag.name.drop versionLead.length) with _ | pv <;> rw [hp] at hf
    · exact Option.noConfusion hf
    · have hf2 : (if (truthy pv.prerelease && !inc) = true then
          (none : Option (Version × CommitId)) else some (pv, tag.commit)) = some (v, c) := hf
      split at hf2
      · exact Option.noConfusion hf2
      · rename_i hfilter
        obtain ⟨hv, hc⟩ : pv = v ∧ tag.commit = c := by
          have := Option.some.inj hf2
          exact ⟨congrArg Prod.fst this, congrArg Prod.snd this⟩
        subst hv
        exact ⟨rfl, hc, by simpa using hfilter⟩
  · rintro ⟨tag, htag, hparse, hcommit, hfilter⟩
    refine ⟨tag, htag, ?_⟩
    rw [hparse]
    show (if (truthy v.prerelease && !inc) = true then
        (none : Option (Version × CommitId)) else some (v, tag.commit)) = some (v, c)
    rw [hfilter]
    simp [hcommit]

theorem tagCandidates_valid {repo : Repo} {inc : Bool} :
    ∀ p ∈ tagCandidates repo inc, ValidV p.1 := by
  intro p hp
  rcases p with ⟨v, c⟩
  obtain ⟨tag, -, hparse, -, -⟩ := mem_tagCandidates.mp hp
  exact parseVC_valid hparse

theorem filterMap_filter_isSome {A B : Type} (g : A → Option B)
    (h : A → Option (Version × CommitId))
    (hcomp : ∀ a, (g a).isSome = false → h a = none) (l : List A) :
    l.filterMap h = (l.filter (fun a => (g a).isSome)).filterMap h := by
  induction l with
  | nil => rfl
  | cons t ts ih =>
    simp only [List.filter_cons]
    rcases hg : (g t).isSome
    · rw [if_neg (by simp [hg]), List.filterMap_cons, hcomp t hg, ih]
    · rw [if_pos (by simp [hg]), List.filterMap_cons, List.filterMap_cons, ih]

theorem tagCandidates_drop_unparseable {repo : Repo} {inc : Bool} :
    tagCandidates repo inc = tagCandidates
      (Repo.mk (repo.tags.filter
        (fun t => (parseVersion (t.name.drop versionLead.length)).isSome))
        repo.mergeBase repo.rangeMessages) inc := by
  unfold tagCandidates
  show repo.tags.filterMap _ =
    (repo.tags.filter (fun t => (parseVersion (t.name.drop versionLead.length)).isSome)
      ).filterMap _
  exact filterMap_filter_isSome
    (fun t => parseVersion (t.name.drop versionLead.length))
    (fun tag => (parseVersion (tag.name.drop versionLead.length)).bind fun version =>
      if truthy version.prerelease && !inc then none
      else some (version, tag.commit))
    (fun a ha => by
      simp only [] at ha ⊢
      rcases hp : parseVersion (a.name.drop versionLead.length) with _ | pv
      · rfl
      · rw [hp] at ha
        exact absurd ha (by simp))
    repo.tags

/-! ## Conventional-commit rules (`_version_update_regexes`) -/

def startsWithL : List Char → List Char → Bool
  | [], _ => true
  | _ :: _, [] => false
  | p :: ps, c :: cs => p = c && startsWithL ps cs

/-- Case-insensitive literal prefix (re.I on ASCII): returns the remainder
after the pattern. -/
def dropLitCI : List Char → List Char → Option (List Char)
  | [], cs => some cs
  | _ :: _, [] => none
  | p :: ps, c :: cs => if p.toLower = c.toLower then dropLitCI ps cs else none

/-- Greedy `(?P<scope>.*)` followed by the literal `pat`: the longest scope
(containing no newline, since `.` does not match one) such that the input is
`scope ++ pat ++ anything`; `none` when no split matches. -/
def greedyCapture (pat : List Char) : List Char → Option (List Char)
  | [] => if startsWithL pat [] then some [] else none
  | c :: rest =>
    if c = '\n' then (if startsWithL pat (c :: rest) then some [] else none)
    else
      match greedyCapture pat rest with
      | some s => some (c :: s)
      | none => if startsWithL pat (c :: rest) then some [] else none

/-- Match `^kw(\((?P<scope>.*)\))?:` (with `!` before `:` when `bang`):
`some scope?` on match. The regex prefers the parenthesized alternative,
and the two alternatives cannot both apply at one position since `(` is
neither `!` nor `:`. -/
def matchTypeRule (kw : String) (bang : Bool) (line : String) : Option (Option String) :=
  match dropLitCI kw.data line.data with
  | none => none
  | some rest =>
    match rest with
    | '(' :: inner =>
      match greedyCapture (if bang then [')', '!', ':'] else [')', ':']) inner with
      | some s => some (some ⟨s⟩)
      | none => none
    | _ =>
      if startsWithL (if bang then ['!', ':'] else [':']) rest then some none else none

/-- Python `\s` on ASCII. -/
def isPyWs (c : Char) : Bool :=
  c = ' ' || c = '\t' || c = '\n' || c = '\r' || c = '\x0b' || c = '\x0c'

/-- Match `^breaking\s+change:` (case-insensitive); the pattern has no scope
group. -/
def matchBreakingRule (line : String) : Option (Option String) :=
  match dropLitCI "breaking".data line.data with
  | none => none
  | some rest =>
    if (rest.takeWhile isPyWs).isEmpty then none
    else
      match dropLitCI "change:".data (rest.dropWhile isPyWs) with
      | some _ => some none
      | none => none

structure VersionUpdateRegexSpec where
  matcher : String → Option (Option String)
  versionUpdate : VersionUpdateEnum
  commitType : CommitType
  hasScope : Bool

/-- The ordered rule table of `SemanticVersioner._version_update_regexes`.
The `hasScope` flag records whether the compiled pattern defines the named
group `scope`: the four fix/feat patterns do, the breaking-change pattern
`^breaking\s+change:` does not. -/
def versionUpdateRegexes : List VersionUpdateRegexSpec := [
  ⟨matchTypeRule "fix" false, .PATCH, .FIX, true⟩,
  ⟨matchTypeRule "feat" false, .MINOR, .FEATURE, true⟩,
  ⟨matchTypeRule "fix" true, .MAJOR, .FIX, true⟩,
  ⟨matchTypeRule "feat" true, .MAJOR, .FEATURE, true⟩,
  ⟨matchBreakingRule, .MAJOR, .OTHER, false⟩]

/-- One iteration of the per-line rule loop in `generate_changelog`: a match
overwrites (version_update, commit_type, scope), but reading the scope group
of a pattern that has none (`match.group("scope")` on the breaking-change
rule) raises IndexError. The outer `none` models that uncaught exception; it
is absorbing, since the raise aborts the whole loop. -/
def classifyStep (line : String)
    (acc : Option (Option (VersionUpdateEnum × CommitType × Option String)))
    (r : VersionUpdateRegexSpec) :
    Option (Option (VersionUpdateEnum × CommitType × Option String)) :=
  match acc with
  | none => none
  | some cur =>
    match r.matcher line with
    | some scope =>
      if r.hasScope then some (some (r.versionUpdate, r.commitType, scope))
      else none
    | none => some cur

/-- The per-line rule loop in `generate_changelog`: every rule in order is
tried and each match overwrites (version_update, commit_type, scope), so the
last matching rule wins — except that a line matching the breaking-change
rule makes the loop raise IndexError on `match.group("scope")` (that pattern
has no scope group), modelled as the outer `none`. -/
def classifyLine (line : String) :
    Option (Option (VersionUpdateEnum × CommitType × Option String)) :=
  versionUpdateRegexes.foldl (classifyStep line) (some none)

/-- Model of `SemanticVersioner._get_version_update_type` on the messages of the
commits in the range, each message given as its list of lines. The fold
starts at PATCH: the enum has no NONE member. -/
def getVersionUpdateType (messages : List (List String)) : VersionUpdateEnum :=
  messages.foldl
    (fun vu msg =>
      msg.foldl
        (fun vu line =>
          versionUpdateRegexes.foldl
            (fun vu r =>
              if (r.matcher line).isSome && vu.val < r.versionUpdate.val then
                r.versionUpdate
              else vu)
            vu)
        vu)
    .PATCH

/-! ## Scope formatter (`split_scope_words`) -/

def isSepChar (c : Char) : Bool := c = '_' || c = '-'

theorem length_dropWhile_le (p : Char → Bool) (l : List Char) :
    (l.dropWhile p).length ≤ l.length := by
  induction l with
  | nil => simp [List.dropWhile]
  | cons c cs ih =>
    simp only [List.dropWhile]
    split
    · exact Nat.le_succ_of_le ih
    · simp

/-- Model of `WORD_BOUNDARY_RE.sub(" ", s)`: insert a space at lower/digit→upper and
acronym→word boundaries (zero-width alternatives), and replace each maximal
run of `[_-]` by one space — tracked here by emitting the space only at the
first separator of a run (the previous original character decides run
membership, and the lookbehinds read the original string, so a separator as
previous character matches no boundary class). -/
def boundarySub (prev : Option Char) : List Char → List Char
  | [] => []
  | c :: rest =>
    if isSepChar c then
      if (match prev with | some p => isSepChar p | none => false) then
        boundarySub (some c) rest
      else ' ' :: boundarySub (some c) rest
    else if (match prev with
        | some p => (p.isLower || p.isDigit) && c.isUpper
        | none => false) then
      ' ' :: c :: boundarySub (some c) rest
    else if (match prev with | some p => p.isUpper | none => false) && c.isUpper &&
        (match rest with | d :: _ => d.isLower | [] => false) then
      ' ' :: c :: boundarySub (some c) rest
    else c :: boundarySub (some c) rest

/-- Model of `re.sub(r"\s+", " ", s)`: each maximal whitespace run becomes one space
(the space is emitted at the first whitespace of a run). -/
def collapseWsGo (prevWs : Bool) : List Char → List Char
  | [] => []
  | c :: rest =>
    if isPyWs c then
      if prevWs then collapseWsGo true rest else ' ' :: collapseWsGo true rest
    else c :: collapseWsGo false rest

def collapseWs (cs : List Char) : List Char := collapseWsGo false cs

/-- Python `str.strip()`. -/
def stripWs (cs : List Char) : List Char :=
  ((cs.dropWhile isPyWs).reverse.dropWhile isPyWs).reverse

/-- Python `str.title()`: a cased (letter) character is uppercased when the
previous character is not a letter and lowercased otherwise. -/
def titleCase : Bool → List Char → List Char
  | _, [] => []
  | prevCased, c :: rest =>
    (if c.isAlpha then (if prevCased then c.toLower else c.toUpper) else c) ::
      titleCase c.isAlpha rest

/-- One non-list scope segment: boundary substitution, whitespace collapse,
strip, then title-case. -/
def formatScopeSegment (cs : List Char) : List Char :=
  titleCase false (stripWs (collapseWs (boundarySub none cs)))

/-- Joins: `", ".join` / `"/".join` over already-formatted bits. -/
def joinStrSep (sep : List Char) : List (List Char) → List Char
  | [] => []
  | [g] => g
  | g :: g2 :: gs => g ++ sep ++ joinStrSep sep (g2 :: gs)

theorem splitSep_mem_length_lt {sep : Char} {cs p : List Char}
    (hp : p ∈ splitSep sep cs) (hlen : 1 < (splitSep sep cs).length) :
    p.length < cs.length := by
  rcases hsp : splitSep sep cs with _ | ⟨g, gs⟩
  · exact absurd hsp (splitSep_ne_nil sep cs)
  · have hjoin : joinSep sep (g :: gs) = cs := by
      rw [← hsp]
      exact joinSep_splitSep sep cs
    have hlenf := joinSep_length sep g gs
    rw [hjoin] at hlenf
    rw [hsp] at hp hlen
    simp only [List.length_cons] at hlen
    have hgs : 1 ≤ gs.length := by omega
    rcases List.mem_cons.mp hp with hpg | hpgs
    · subst hpg
      omega
    · have hple : p.length ≤ (gs.map List.length).sum :=
        List.single_le_sum (by intro x hx; omega) p.length
          (List.mem_map.mpr ⟨p, hpgs, rfl⟩)
      omega

/-- Model of `SemanticVersioner.split_scope_words` on the character list, with a
structural fuel bound: each recursive call is on a strictly shorter piece
(`splitSep_mem_length_lt`), so any fuel above the length is enough. -/
def splitScopeGo : Nat → List Char → List Char
  | 0, _ => []
  | fuel + 1, cs =>
    if 1 < (splitSep ',' cs).length then
      joinStrSep [',', ' '] ((splitSep ',' cs).map (splitScopeGo fuel))
    else if 1 < (splitSep '/' cs).length then
      joinStrSep ['/'] ((splitSep '/' cs).map (splitScopeGo fuel))
    else if cs.isEmpty then []
    else formatScopeSegment cs

def splitScopeCore (cs : List Char) : List Char := splitScopeGo (cs.length + 1) cs

/-- Model of `SemanticVersioner.split_scope_words`. -/
def split_scope_words (scope : String) : String := ⟨splitScopeCore scope.data⟩

/-! ## Tag name computation and publication -/

/-- Model of `SemanticVersioner._get_version_strings`: primary `v<version>` name plus,
when shorter versions are enabled, floating alias names, each carrying the
first prerelease identifier as a `-suffix` when a prerelease is present. -/
def getVersionStrings (includeShorter : Bool) (version : Version) : List String :=
  let suffix : String :=
    if truthy version.prerelease then
      "-" ++ (match splitSep '.' (version.prerelease.getD "").data with
        | g :: _ => (⟨g⟩ : String)
        | [] => "")
    else ""
  let result := [versionLead ++ versionToString version]
  if !includeShorter then result
  else
    result ++
      (if suffix ≠ "" then
        [versionLead ++ natStr version.major ++ "." ++ natStr version.minor ++ "." ++
          natStr version.patch ++ suffix]
      else []) ++
      [versionLead ++ natStr version.major ++ "." ++ natStr version.minor ++ suffix,
       versionLead ++ natStr version.major ++ suffix]

/-- One git tag-store mutation issued by `_add_version_tags_to_commit`. -/
inductive TagOp
  | deleteLocal (name : String)
  | deleteRemote (name : String)
  | create (name : String) (commit : CommitId)
deriving DecidableEq

def tagOpName : TagOp → String
  | .deleteLocal n => n
  | .deleteRemote n => n
  | .create n _ => n

/-- Model of `SemanticVersioner._add_version_tags_to_commit`: for each computed name,
an existing tag of that name is deleted locally and on the remote before the
name is recreated at the commit; a missing name is created directly. The
existing-tag snapshot is taken once, before the loop. -/
def addVersionTagsToCommit (existingTags : List Tag) (commit : CommitId)
    (version : Version) (includeShorter : Bool) : List TagOp :=
  let existingNames := existingTags.map Tag.name
  (getVersionStrings includeShorter version).flatMap fun tagName =>
    (if tagName ∈ existingNames then [.deleteLocal tagName, .deleteRemote tagName]
     else []) ++ [.create tagName commit]

/-- Effect of one tag operation on the local tag store. -/
def applyTagOp (store : List Tag) : TagOp → List Tag
  | .deleteLocal n => store.filter (fun t => t.name ≠ n)
  | .deleteRemote _ => store
  | .create n c => store ++ [⟨n, c⟩]

def applyTagOps (store : List Tag) (ops : List TagOp) : List Tag :=
  ops.foldl applyTagOp store

def lookupTag (store : List Tag) (n : String) : Option CommitId :=
  (store.find? (fun t => t.name == n)).map Tag.commit

/-! ## The dev version computation of `add_dev_tags` (lines 378-471) -/

/-- Join: `".".join` on strings. -/
def joinDotStr : List String → String
  | [] => ""
  | [s] => s
  | s :: s2 :: rest => s ++ "." ++ joinDotStr (s2 :: rest)

/-- The pure version computation of `SemanticVersioner.add_dev_tags`, from
the bump of the main version through the dev prerelease logic. The result is
`none` where the Python code raises an uncaught exception: `ValueError` from
the fallback `semver.Version.parse(bits[0])`, or `IndexError` from `bits[0]`
on an empty list. -/
def computeDevVersion (latestMainVersion latestDevVersion : Version)
    (versionUpdateType devVersionUpdateType : VersionUpdateEnum)
    (devSuffix : String) (devVersionStyle : DevVersionStyle) : Option Version :=
  let newDevVersion := bumpVersion latestMainVersion versionUpdateType
  let bits : List String :=
    if truthy latestDevVersion.prerelease then
      ((splitSep '.' (latestDevVersion.prerelease.getD "").data).map
        (fun g => (⟨g⟩ : String))).drop 1
    else []
  let latestDev2 :=
    if truthy latestDevVersion.prerelease then
      if devVersionStyle = .INCREMENTING ∧ 1 < bits.length then
        withPre latestDevVersion (devSuffix ++ "." ++ bits.headD "")
      else if devVersionStyle = .SEMANTIC ∧ bits.length = 1 then
        withPre latestDevVersion (devSuffix ++ "." ++ bits.headD "" ++ ".0.0")
      else latestDevVersion
    else
      if devVersionStyle = .INCREMENTING then withPre latestDevVersion (devSuffix ++ ".0")
      else withPre latestDevVersion (devSuffix ++ ".0.0.0")
  let newDev2 :=
    if truthy latestDevVersion.prerelease then newDevVersion
    else
      if devVersionStyle = .INCREMENTING then withPre newDevVersion (devSuffix ++ ".0")
      else withPre newDevVersion (devSuffix ++ ".0.0.0")
  if devVersionStyle = .INCREMENTING ∨ devVersionUpdateType = .PATCH then
    if (newDev2.major, newDev2.minor, newDev2.patch) =
        (latestDev2.major, latestDev2.minor, latestDev2.patch) then
      some (bumpPrerelease latestDev2 devSuffix)
    else some (bumpPrerelease newDev2 devSuffix)
  else
    if (newDev2.major, newDev2.minor, newDev2.patch) =
        (latestDev2.major, latestDev2.minor, latestDev2.patch) then
      match parseVersion (joinDotStr bits) with
      | some pv =>
        some (withPre newDev2
          (devSuffix ++ "." ++ versionToString (bumpVersion pv devVersionUpdateType)))
      | none =>
        match bits with
        | [] => none
        | b :: _ =>
          match parseVersion b with
          | some pv =>
            some (withPre newDev2
              (devSuffix ++ "." ++ versionToString (bumpVersion pv devVersionUpdateType)))
          | none => none
    else some (withPre newDev2 (devSuffix ++ ".0.0.1"))

/-! ## Top-level tagging flows -/

/-- Terminal failures of one invocation (log.error + return False, or an
uncaught exception, in the Python code). -/
inductive VError
  | branchNotFound
  | noCommonAncestor
  | alreadyTagged
  | latestMainNotFound
  | latestDevNotFound
  | noLatestVersion
  | devComputationFailed
deriving DecidableEq

/-- Model of `SemanticVersioner.add_main_tags` without the optional changelog step:
resolve the latest non-prerelease version reachable from the main head,
refuse to re-tag an already tagged head, bump by the range severity, and
emit the tag operations. A missing latest version makes the Python code
iterate a `None..head` range and die on the git error, modelled as an
error result. -/
def addMainTags (repo : Repo) (mainHead : CommitId) (includeShorter : Bool) :
    Except VError (List TagOp) :=
  match getLatestVersion repo mainHead false with
  | none => .error .noLatestVersion
  | some (latestVersion, latestVersionCommit) =>
    if latestVersionCommit = mainHead then .error .alreadyTagged
    else
      let vut := getVersionUpdateType (repo.rangeMessages latestVersionCommit mainHead)
      .ok (addVersionTagsToCommit repo.tags mainHead (bumpVersion latestVersion vut)
        includeShorter)

/-- Model of `SemanticVersioner.add_dev_tags` without the optional changelog step,
with the branch head already resolved. Checks happen in source order: missing
main version, missing dev version, already-tagged dev head, ambiguous merge
base; then the dev version computation and the tag operations. -/
def addDevTags (repo : Repo) (mainHead devHead : CommitId) (devSuffix : String)
    (devVersionStyle : DevVersionStyle) (includeShorter : Bool) :
    Except VError (List TagOp) :=
  match getLatestVersion repo mainHead false with
  | none => .error .latestMainNotFound
  | some (latestMainVersion, _) =>
    match getLatestVersion repo devHead true with
    | none => .error .latestDevNotFound
    | some (latestDevVersion, latestDevVersionCommit) =>
      if latestDevVersionCommit = devHead then .error .alreadyTagged
      else
        match repo.mergeBase mainHead devHead with
        | [commonAncestor] =>
          let vut := getVersionUpdateType (repo.rangeMessages commonAncestor devHead)
          let dvut := getVersionUpdateType
            (repo.rangeMessages latestDevVersionCommit devHead)
          match computeDevVersion latestMainVersion latestDevVersion vut dvut
              devSuffix devVersionStyle with
          | some newDevVersion =>
            .ok (addVersionTagsToCommit repo.tags devHead newDevVersion includeShorter)
          | none => .error .devComputationFailed
        | _ => .error .noCommonAncestor

/-! ## Support lemmas for the claims -/

theorem takeWhile_append_all {p : Char → Bool} {xs : List Char} (ys : List Char)
    (h : xs.all p = true) : (xs ++ ys).takeWhile p = xs ++ ys.takeWhile p := by
  induction xs with
  | nil => simp
  | cons c cs ih =>
    simp only [List.all_cons, Bool.and_eq_true] at h
    simp only [List.cons_append, List.takeWhile_cons, h.1, if_true, ih h.2]

theorem dropWhile_append_all {p : Char → Bool} {xs : List Char} (ys : List Char)
    (h : xs.all p = true) : (xs ++ ys).dropWhile p = ys.dropWhile p := by
  induction xs with
  | nil => simp
  | cons c cs ih =>
    simp only [List.all_cons, Bool.and_eq_true] at h
    simp only [List.cons_append, List.dropWhile_cons, h.1, if_true, ih h.2]

theorem takeWhile_head_false {p : Char → Bool} {xs : List Char}
    (h : ∀ c, xs.head? = some c → p c = false) : xs.takeWhile p = [] := by
  rcases xs with _ | ⟨c, cs⟩
  · rfl
  · simp [List.takeWhile_cons, h c rfl]

theorem dropWhile_head_false {p : Char → Bool} {xs : List Char}
    (h : ∀ c, xs.head? = some c → p c = false) : xs.dropWhile p = xs := by
  rcases xs with _ | ⟨c, cs⟩
  · rfl
  · simp [List.dropWhile_cons, h c rfl]

/-- Incrementing a string that ends in the decimal digits of `n`, with the
character before them (if any) not a digit, bumps exactly that number. -/
theorem incrementString_digits {a : List Char} {n : Nat}
    (h : ∀ c, a.getLast? = some c → c.isDigit = false) :
    incrementString ⟨a ++ natToDigits n⟩ = ⟨a ++ natToDigits (n + 1)⟩ := by
  have hrev : ∀ c, a.reverse.head? = some c → c.isDigit = false := by
    intro c hc
    exact h c (by rwa [List.head?_reverse] at hc)
  have hdig : (natToDigits n).reverse.all (·.isDigit) = true := by
    rw [List.all_reverse]
    exact natToDigits_all_digits n
  unfold incrementString
  simp only [List.reverse_append]
  rw [takeWhile_append_all _ hdig, dropWhile_append_all _ hdig,
    takeWhile_head_false hrev, dropWhile_head_false hrev]
  rw [List.append_nil]
  have hne : ((natToDigits n).reverse).isEmpty = false := by
    rcases hh : natToDigits n with _ | ⟨c, cs⟩
    · exact absurd hh (natToDigits_ne_nil n)
    · simp
  rw [hne]
  simp only [Bool.false_eq_true, if_false, List.reverse_reverse, natToDigits_val]

theorem string_data_mk (l : List Char) : (String.mk l).data = l := rfl

theorem append_data (s t : String) : (s ++ t).data = s.data ++ t.data :=
  String.data_append ..

/-- The rule fold of `_get_version_update_type` keeps its accumulator when no
rule matches the line. -/
theorem rulesFold_no_match (line : String) (vu : VersionUpdateEnum)
    (rs : List VersionUpdateRegexSpec) (h : ∀ r ∈ rs, r.matcher line = none) :
    rs.foldl
      (fun vu r =>
        if (r.matcher line).isSome && vu.val < r.versionUpdate.val then r.versionUpdate
        else vu) vu = vu := by
  induction rs generalizing vu with
  | nil => rfl
  | cons r rest ih =>
    simp only [List.foldl_cons]
    rw [h r (by simp), ih _ (fun r hr => h r (by simp [hr]))]
    simp

theorem linesFold_no_match (msg : List String) (vu : VersionUpdateEnum)
    (h : ∀ line ∈ msg, ∀ r ∈ versionUpdateRegexes, r.matcher line = none) :
    msg.foldl
      (fun vu line =>
        versionUpdateRegexes.foldl
          (fun vu r =>
            if (r.matcher line).isSome && vu.val < r.versionUpdate.val then r.versionUpdate
            else vu) vu) vu = vu := by
  induction msg generalizing vu with
  | nil => rfl
  | cons line rest ih =>
    simp only [List.foldl_cons]
    rw [rulesFold_no_match line vu _ (h line (by simp)),
      ih _ (fun l hl => h l (by simp [hl]))]

/-- When no line of any commit in the range matches a rule, the folded
severity is the starting PATCH value. -/
theorem getVersionUpdateType_no_match (messages : List (List String))
    (h : ∀ msg ∈ messages, ∀ line ∈ msg, ∀ r ∈ versionUpdateRegexes,
      r.matcher line = none) :
    getVersionUpdateType messages = .PATCH := by
  unfold getVersionUpdateType
  induction messages with
  | nil => rfl
  | cons msg rest ih =>
    simp only [List.foldl_cons]
    rw [linesFold_no_match msg _ (h msg (by simp))]
    exact ih (fun m hm => h m (by simp [hm]))

/-- The last-matching-rule reading of the per-line loop. -/
def lastMatchClassify (line : String) :
    Option (VersionUpdateEnum × CommitType × Option String) :=
  versionUpdateRegexes.reverse.findSome? fun r =>
    (r.matcher line).map fun scope => (r.versionUpdate, r.commitType, scope)

/-- After a raise the loop result stays the raise: the absorbing case of
`classifyStep`. -/
theorem classifyStep_absorb (line : String) (rs : List VersionUpdateRegexSpec) :
    rs.foldl (classifyStep line) none = none := by
  induction rs with
  | nil => rfl
  | cons r rest ih =>
    rw [List.foldl_cons]
    exact ih

/-- A line matched by a rule whose pattern has no scope group makes the whole
per-line loop raise, whatever was accumulated before. -/
theorem classify_crash (line : String) (r : VersionUpdateRegexSpec)
    (hm : r.matcher line ≠ none) (hs : r.hasScope = false) :
    ∀ rs : List VersionUpdateRegexSpec, r ∈ rs → ∀ acc,
      rs.foldl (classifyStep line) acc = none := by
  intro rs
  induction rs with
  | nil =>
    intro hr
    cases hr
  | cons r0 rest ih =>
    intro hr acc
    rw [List.foldl_cons]
    rcases List.mem_cons.mp hr with rfl | hr2
    · have hstep : classifyStep line acc r = none := by
        rcases acc with _ | cur
        · rfl
        · simp only [classifyStep]
          rcases hm2 : r.matcher line with _ | scope
          · exact absurd hm2 hm
          · simp [hs]
      rw [hstep]
      exact classifyStep_absorb line rest
    · exact ih hr2 _

/-- On a line that no group-less rule matches, the per-line loop is the
last-matching-rule overwrite, as before. -/
theorem foldl_classify_findSome (line : String) :
    ∀ rs : List VersionUpdateRegexSpec,
      (∀ r ∈ rs, r.hasScope = false → r.matcher line = none) →
      ∀ cur : Option (VersionUpdateEnum × CommitType × Option String),
      rs.foldl (classifyStep line) (some cur) =
        some (match rs.reverse.findSome? (fun r =>
          (r.matcher line).map fun scope => (r.versionUpdate, r.commitType, scope)) with
        | some x => some x
        | none => cur) := by
  intro rs
  induction rs with
  | nil =>
    intro _ cur
    rfl
  | cons r rest ih =>
    intro hok cur
    have hok2 : ∀ r2 ∈ rest, r2.hasScope = false → r2.matcher line = none :=
      fun r2 h2 => hok r2 (by simp [h2])
    rw [List.foldl_cons, List.reverse_cons, List.findSome?_append]
    rcases hm : r.matcher line with _ | scope
    · have hstep : classifyStep line (some cur) r = some cur := by
        simp [classifyStep, hm]
      rw [hstep, ih hok2]
      rcases hrest : rest.reverse.findSome? (fun r =>
          (r.matcher line).map fun scope => (r.versionUpdate, r.commitType, scope)) with _ |
        x <;> rw [hrest]
      · simp [List.findSome?, hm]
      · simp
    · have hsc : r.hasScope = true := by
        rcases hb : r.hasScope
        · exact absurd (hok r (by simp) hb) (by simp [hm])
        · rfl
      have hstep : classifyStep line (some cur) r =
          some (some (r.versionUpdate, r.commitType, scope)) := by
        simp [classifyStep, hm, hsc]
      rw [hstep, ih hok2]
      rcases hrest : rest.reverse.findSome? (fun r =>
          (r.matcher line).map fun scope => (r.versionUpdate, r.commitType, scope)) with _ |
        x <;> rw [hrest]
      · simp [List.findSome?, hm]
      · simp

theorem lookupTag_filter_self (s : List Tag) (n : String) :
    lookupTag (s.filter (fun t => t.name ≠ n)) n = none := by
  unfold lookupTag
  rw [Option.map_eq_none', List.find?_eq_none]
  intro t ht
  have := List.of_mem_filter ht
  simp only [decide_eq_true_eq] at this
  simp [this]

theorem lookupTag_none_find {s : List Tag} {n : String} (h : lookupTag s n = none) :
    s.find? (fun t => t.name == n) = none := by
  unfold lookupTag at h
  exact Option.map_eq_none'.mp h

theorem lookupTag_append_single {s : List Tag} {n : String} (c : CommitId)
    (h : lookupTag s n = none) : lookupTag (s ++ [⟨n, c⟩]) n = some c := by
  unfold lookupTag
  rw [List.find?_append, lookupTag_none_find h]
  simp [List.find?_cons]

theorem lookupTag_not_mem {s : List Tag} {n : String} (h : n ∉ s.map Tag.name) :
    lookupTag s n = none := by
  unfold lookupTag
  rw [Option.map_eq_none', List.find?_eq_none]
  intro t ht
  simp only [Bool.not_eq_true, beq_eq_false_iff_ne, ne_eq]
  intro hname
  exact h (List.mem_map.mpr ⟨t, ht, hname⟩)

theorem lookupTag_filter_other {s : List Tag} {m n : String} (h : m ≠ n) :
    lookupTag (s.filter (fun t => t.name ≠ m)) n = lookupTag s n := by
  unfold lookupTag
  induction s with
  | nil => rfl
  | cons t ts ih =>
    simp only [List.filter_cons]
    by_cases htm : t.name = m
    · rw [if_neg (by simp [htm]), List.find?_cons_of_neg _ (by simp [htm, h])]
      exact ih
    · rw [if_pos (by simp [htm])]
      by_cases htn : t.name = n
      · rw [List.find?_cons_of_pos _ (by simp [htn]),
          List.find?_cons_of_pos _ (by simp [htn])]
      · rw [List.find?_cons_of_neg _ (by simp [htn]),
          List.find?_cons_of_neg _ (by simp [htn])]
        exact ih

theorem lookupTag_applyTagOp_other {s : List Tag} {op : TagOp} {n : String}
    (h : tagOpName op ≠ n) : lookupTag (applyTagOp s op) n = lookupTag s n := by
  rcases op with ⟨m⟩ | ⟨m⟩ | ⟨m, c⟩
  · exact lookupTag_filter_other (by simpa [tagOpName] using h)
  · rfl
  · simp only [tagOpName] at h
    unfold lookupTag applyTagOp
    rw [List.find?_append]
    rcases hf : s.find? (fun t => t.name == n) with _ | t
    · simp [List.find?_cons, h]
    · simp [hf]

theorem lookupTag_applyTagOps_other {s : List Tag} {ops : List TagOp} {n : String}
    (h : ∀ op ∈ ops, tagOpName op ≠ n) :
    lookupTag (applyTagOps s ops) n = lookupTag s n := by
  induction ops generalizing s with
  | nil => rfl
  | cons op rest ih =>
    show lookupTag (applyTagOps (applyTagOp s op) rest) n = _
    rw [ih (fun o ho => h o (by simp [ho]))]
    exact lookupTag_applyTagOp_other (h op (by simp))

theorem applyTagOps_append (s : List Tag) (ops1 ops2 : List TagOp) :
    applyTagOps s (ops1 ++ ops2) = applyTagOps (applyTagOps s ops1) ops2 :=
  List.foldl_append ..

/-- Applying one per-name block of `_add_version_tags_to_commit` leaves the
name bound to the new commit, provided the name was absent when no delete
was issued. -/
theorem lookupTag_block {s : List Tag} {n : String} {c : CommitId} {cond : Prop}
    [Decidable cond] (h : ¬cond → lookupTag s n = none) :
    lookupTag (applyTagOps s
      ((if cond then [TagOp.deleteLocal n, TagOp.deleteRemote n] else []) ++
        [TagOp.create n c])) n = some c := by
  split
  · show lookupTag (applyTagOp (applyTagOp (applyTagOp s (.deleteLocal n))
      (.deleteRemote n)) (.create n c)) n = some c
    show lookupTag ((s.filter (fun t => t.name ≠ n)) ++ [⟨n, c⟩]) n = some c
    exact lookupTag_append_single c (lookupTag_filter_self s n)
  · rename_i hcond
    show lookupTag (s ++ [⟨n, c⟩]) n = some c
    exact lookupTag_append_single c (h hcond)

theorem bumpVersion_build (v : Version) (u : VersionUpdateEnum) :
    (bumpVersion v u).build = none := by cases u <;> rfl

theorem bumpVersion_prerelease (v : Version) (u : VersionUpdateEnum) :
    (bumpVersion v u).prerelease = none := by cases u <;> rfl

theorem dot_not_digit_mem {n : Nat} : ('.' : Char) ∉ natToDigits n := by
  intro hmem
  have hall := natToDigits_all_digits n
  rw [List.all_eq_true] at hall
  have := hall '.' hmem
  simp at this

theorem suffix_dot_digits_data (suffix : String) (n : Nat) :
    (suffix ++ "." ++ natStr n).data = (suffix.data ++ ['.']) ++ natToDigits n := by
  rw [append_data, append_data]
  rfl

theorem splitSep_suffix_dot_digits {suffix : String} (hdot : ('.' : Char) ∉ suffix.data)
    (n : Nat) :
    splitSep '.' (suffix ++ "." ++ natStr n).data = [suffix.data, natToDigits n] := by
  rw [suffix_dot_digits_data, List.append_assoc]
  show splitSep '.' (suffix.data ++ '.' :: natToDigits n) = _
  rw [splitSep_append_sep hdot, splitSep_no_sep dot_not_digit_mem]

theorem suffix_dot_digits_ne_empty (suffix : String) (n : Nat) :
    (suffix ++ "." ++ natStr n) ≠ "" := by
  intro h
  have h2 := congrArg String.data h
  rw [suffix_dot_digits_data] at h2
  simp at h2

theorem incrementString_suffix_dot (suffix : String) (n : Nat) :
    incrementString (suffix ++ "." ++ natStr n) = suffix ++ "." ++ natStr (n + 1) := by
  have h1 : (suffix ++ "." ++ natStr n) = ⟨(suffix.data ++ ['.']) ++ natToDigits n⟩ :=
    String.ext (suffix_dot_digits_data suffix n)
  have h2 : (suffix ++ "." ++ natStr (n + 1)) =
      ⟨(suffix.data ++ ['.']) ++ natToDigits (n + 1)⟩ :=
    String.ext (suffix_dot_digits_data suffix (n + 1))
  rw [h1, h2]
  apply incrementString_digits
  intro c hc
  rw [List.getLast?_concat] at hc
  rcases Option.some.inj hc with rfl
  decide

theorem computeDev_incrementing
    (lm ld : Version) (vut dvut : VersionUpdateEnum) (suffix : String) (n : Nat)
    (hpre : ld.prerelease = some (suffix ++ "." ++ natStr n))
    (hdot : ('.' : Char) ∉ suffix.data) (hne : suffix ≠ "") :
    (((bumpVersion lm vut).major = ld.major ∧ (bumpVersion lm vut).minor = ld.minor ∧
        (bumpVersion lm vut).patch = ld.patch) →
      computeDevVersion lm ld vut dvut suffix .INCREMENTING =
        some ⟨ld.major, ld.minor, ld.patch, some (suffix ++ "." ++ natStr (n + 1)), none⟩) ∧
    (¬((bumpVersion lm vut).major = ld.major ∧ (bumpVersion lm vut).minor = ld.minor ∧
        (bumpVersion lm vut).patch = ld.patch) →
      computeDevVersion lm ld vut dvut suffix .INCREMENTING =
        some ⟨(bumpVersion lm vut).major, (bumpVersion lm vut).minor,
          (bumpVersion lm vut).patch, some (suffix ++ ".1"), none⟩) := by
  have htruthy : truthy ld.prerelease = true := by
    rw [hpre]
    simp [truthy, suffix_dot_digits_ne_empty suffix n]
  have hbits : ((splitSep '.' ((ld.prerelease.getD "").data)).map
      (fun g => (⟨g⟩ : String))).drop 1 = [natStr n] := by
    rw [hpre]
    show ((splitSep '.' (suffix ++ "." ++ natStr n).data).map _).drop 1 = _
    rw [splitSep_suffix_dot_digits hdot]
    rfl
  have hn0 : natStr 0 = "0" := by decide
  have hn1 : natStr 1 = "1" := by decide
  have e0 : (suffix ++ ".0") = suffix ++ "." ++ natStr 0 := by
    rw [hn0]
    apply String.ext
    simp [append_data]
  have e1 : suffix ++ "." ++ natStr 1 = suffix ++ ".1" := by
    rw [hn1]
    apply String.ext
    simp [append_data]
  constructor
  · intro hbe
    simp only [computeDevVersion, htruthy, hbits, if_true]
    simp [hbe, Prod.mk.injEq, bumpPrerelease, hpre, incrementString_suffix_dot]
  · intro hbe
    simp only [computeDevVersion, htruthy, hbits, if_true]
    simp only [Prod.mk.injEq]
    rw [if_pos (Or.inl True.intro)]
    rw [if_neg (by simpa using hbe)]
    simp [bumpPrerelease, bumpVersion_prerelease, hne, e0, incrementString_suffix_dot, e1]

/-- In the SEMANTIC style, when the newly bumped base differs from the previous
dev tag's base, the nested version resets to `0.0.1`. -/
theorem computeDev_semantic_base_change
    (lm ld : Version) (vut dvut : VersionUpdateEnum) (suffix : String)
    (hdv : dvut ≠ .PATCH)
    (hbase : ¬((bumpVersion lm vut).major = ld.major ∧
      (bumpVersion lm vut).minor = ld.minor ∧ (bumpVersion lm vut).patch = ld.patch)) :
    computeDevVersion lm ld vut dvut suffix .SEMANTIC =
      some (withPre (bumpVersion lm vut) (suffix ++ ".0.0.1")) := by
  simp only [computeDevVersion]
  rcases htr : truthy ld.prerelease
  · simp [hdv, withPre, Prod.mk.injEq, hbase, bumpVersion_build]
  · simp [hdv, withPre, Prod.mk.injEq, hbase, bumpVersion_build]
    intro h1 h2 h3
    exfalso
    apply hbase
    refine ⟨?_, ?_, ?_⟩
    · split at h1 <;> simpa using h1
    · split at h2 <;> simpa using h2
    · split at h3 <;> simpa using h3

theorem computeDev_no_prerelease
    (lm ld : Version) (vut dvut : VersionUpdateEnum) (suffix : String)
    (hpre : ld.prerelease = none) :
    (∃ r, computeDevVersion lm ld vut dvut suffix .INCREMENTING = some r ∧
      r.prerelease = some (suffix ++ ".1")) ∧
    (dvut = .PATCH →
      ∃ r, computeDevVersion lm ld vut dvut suffix .SEMANTIC = some r ∧
        r.prerelease = some (suffix ++ ".0.0.1")) ∧
    (dvut ≠ .PATCH →
      ¬((bumpVersion lm vut).major = ld.major ∧ (bumpVersion lm vut).minor = ld.minor ∧
          (bumpVersion lm vut).patch = ld.patch) →
      computeDevVersion lm ld vut dvut suffix .SEMANTIC =
        some (withPre (bumpVersion lm vut) (suffix ++ ".0.0.1"))) ∧
    (dvut ≠ .PATCH →
      ((bumpVersion lm vut).major = ld.major ∧ (bumpVersion lm vut).minor = ld.minor ∧
          (bumpVersion lm vut).patch = ld.patch) →
      computeDevVersion lm ld vut dvut suffix .SEMANTIC = none) := by
  have htr : truthy ld.prerelease = false := by rw [hpre]; rfl
  have hn0 : natStr 0 = "0" := by decide
  have hn1 : natStr 1 = "1" := by decide
  have e0 : (suffix ++ ".0") = suffix ++ "." ++ natStr 0 := by
    rw [hn0]
    apply String.ext
    simp [append_data]
  have e1 : suffix ++ "." ++ natStr 1 = suffix ++ ".1" := by
    rw [hn1]
    apply String.ext
    simp [append_data]
  have e00 : (suffix ++ ".0.0.0") = (suffix ++ ".0.0") ++ "." ++ natStr 0 := by
    rw [hn0]
    apply String.ext
    simp [append_data]
  have e01 : (suffix ++ ".0.0") ++ "." ++ natStr 1 = suffix ++ ".0.0.1" := by
    rw [hn1]
    apply String.ext
    simp [append_data]
  have hse : (DevVersionStyle.SEMANTIC = DevVersionStyle.INCREMENTING) = False := by
    simp
  have hii : (DevVersionStyle.INCREMENTING = DevVersionStyle.INCREMENTING) = True := by
    simp
  refine ⟨?_, ?_, ?_, ?_⟩
  · simp only [computeDevVersion, htr]
    simp only [Bool.false_eq_true, if_false, if_true, true_or, hii]
    simp only [if_true, withPre, Prod.mk.injEq]
    by_cases hc : (bumpVersion lm vut).major = ld.major ∧
        (bumpVersion lm vut).minor = ld.minor ∧ (bumpVersion lm vut).patch = ld.patch
    · rw [if_pos hc]
      exact ⟨_, rfl, by simp [bumpPrerelease, e0, incrementString_suffix_dot, e1]⟩
    · rw [if_neg hc]
      exact ⟨_, rfl, by simp [bumpPrerelease, e0, incrementString_suffix_dot, e1]⟩
  · intro hdp
    simp only [computeDevVersion, htr, hdp]
    simp only [Bool.false_eq_true, if_false, if_true, true_or, or_true, hse]
    simp only [if_false, withPre, Prod.mk.injEq]
    by_cases hc : (bumpVersion lm vut).major = ld.major ∧
        (bumpVersion lm vut).minor = ld.minor ∧ (bumpVersion lm vut).patch = ld.patch
    · rw [if_pos hc]
      exact ⟨_, rfl, by simp [bumpPrerelease, e00, incrementString_suffix_dot, e01]⟩
    · rw [if_neg hc]
      exact ⟨_, rfl, by simp [bumpPrerelease, e00, incrementString_suffix_dot, e01]⟩
  · intro hdp hbe
    exact computeDev_semantic_base_change lm ld vut dvut suffix hdp hbe
  · intro hdp hbe
    simp only [computeDevVersion, htr]
    simp only [Bool.false_eq_true, if_false, if_true]
    rw [if_neg (by simp [hdp])]
    rw [if_pos (by simp [withPre, Prod.mk.injEq, hbe.1, hbe.2.1, hbe.2.2])]
    rfl

/-! ## Example repository used by the witnesses -/

/-- A small concrete repository: two release tags, one unparseable tag, one
prerelease tag. Merge-base oracle: commits 1 and 2 are true ancestors of
commit 5, commit 4 is not (merge base 0), every commit is its own merge base. -/
def repoEx : Repo :=
  ⟨[⟨"v1.0.0", 1⟩, ⟨"v2.0.0", 2⟩, ⟨"junk", 3⟩, ⟨"v2.5.0-rc.1", 4⟩],
   fun a b =>
     if a = 1 ∧ b = 5 then [1]
     else if a = 2 ∧ b = 5 then [2]
     else if a = 4 ∧ b = 5 then [0]
     else if a = b then [a]
     else [],
   fun _ _ => [["chore: tidy"]]⟩

/-- Auxiliary: `findVersionTag` only reads the merge-base oracle, so the tag
list of the repository argument is irrelevant. -/
theorem findVersionTag_congr (repo : Repo) (tags2 : List Tag) (commit : CommitId)
    (l : List (Version × CommitId)) :
    findVersionTag (Repo.mk tags2 repo.mergeBase repo.rangeMessages) commit l =
      findVersionTag repo commit l := by
  induction l with
  | nil => rfl
  | cons x rest ih =>
    rcases x with ⟨v, tc⟩
    show (if repo.mergeBase tc commit = [tc] then some (v, tc)
      else findVersionTag (Repo.mk tags2 repo.mergeBase repo.rangeMessages) commit rest) = _
    rw [ih]
    rfl

theorem splitSep_mem_no_sep {sep : Char} {cs : List Char} :
    ∀ g ∈ splitSep sep cs, sep ∉ g := by
  induction cs with
  | nil =>
    intro g hg
    simp [splitSep] at hg
    simp [hg]
  | cons c cs ih =>
    intro g hg
    unfold splitSep at hg
    split at hg
    · rcases List.mem_cons.mp hg with hnil | htail
      · simp [hnil]
      · exact ih g htail
    · rename_i hc
      rcases hrec : splitSep sep cs with _ | ⟨g0, gs⟩
      · exact absurd hrec (splitSep_ne_nil sep cs)
      · rw [hrec] at hg
        unfold consHead at hg
        rcases List.mem_cons.mp hg with hhead | htail
        · rw [hhead]
          intro hmem
          rcases List.mem_cons.mp hmem with hsc | hsg0
          · exact hc hsc.symm
          · exact ih g0 (by simp [hrec]) hsg0
        · exact ih g (by simp [hrec, htail])

/-- A character list without a dot never parses as a version: the grammar
demands `major.minor.patch`. -/
theorem parseVC_no_dot {cs : List Char} (h : ('.' : Char) ∉ cs) : parseVC cs = none := by
  unfold parseVC
  rw [List.span_eq_take_drop]
  rcases hr : cs.dropWhile (·.isDigit) with _ | ⟨c, rest⟩ <;> rw [hr]
  · rcases hcan : canonicalNumB (List.takeWhile (fun x => x.isDigit) cs) <;> simp [hcan]
  · have hcdot : c ≠ '.' := by
      intro hc
      apply h
      have hmem : c ∈ cs.dropWhile (·.isDigit) := by rw [hr]; simp
      have hsub : c ∈ cs := (List.dropWhile_sublist (fun x : Char => x.isDigit)).mem hmem
      exact hc ▸ hsub
    rcases hcan : canonicalNumB (List.takeWhile (fun x => x.isDigit) cs) <;> simp [hcan]
    split
    · rename_i heq
      exact absurd (List.cons.inj heq).1 hcdot
    · rfl

/-! ## The claims -/

/-- C1: `_get_latest_version` returns, among the tags whose name parses after
the version prefix (unparseable tags are skipped without error) and which pass
the prerelease filter, a tag whose commit is the unique merge-base of itself
and the target commit (a true ancestor), and of maximal semver precedence
among all such qualifying candidates; when no candidate qualifies it reports
none (NotFound), and it never returns a tag whose commit is not such an
ancestor. -/
theorem claim_C1 (repo : Repo) (commit : CommitId) (incPre : Bool) :
    (∀ v tc, getLatestVersion repo commit incPre = some (v, tc) →
      (∃ tag ∈ repo.tags, parseVersion (tag.name.drop versionLead.length) = some v ∧
        tag.commit = tc ∧ (truthy v.prerelease && !incPre) = false) ∧
      repo.mergeBase tc commit = [tc] ∧
      (∀ p ∈ tagCandidates repo incPre, repo.mergeBase p.2 commit = [p.2] →
        vcmp p.1 v ≠ .gt)) ∧
    (getLatestVersion repo commit incPre = none →
      ∀ p ∈ tagCandidates repo incPre, repo.mergeBase p.2 commit ≠ [p.2]) ∧
    getLatestVersion repo commit incPre =
      getLatestVersion (Repo.mk (repo.tags.filter
        (fun t => (parseVersion (t.name.drop versionLead.length)).isSome))
        repo.mergeBase repo.rangeMessages) commit incPre := by
  refine ⟨?_, ?_, ?_⟩
  · intro v tc h
    unfold getLatestVersion at h
    obtain ⟨hmem, hmb, hbest⟩ := findVersionTag_some h
    have hmem2 : (v, tc) ∈ tagCandidates repo incPre := mem_sortDesc.mp hmem
    refine ⟨mem_tagCandidates.mp hmem2, hmb, ?_⟩
    intro p hp hpc
    exact hbest (sortDesc_pairwise tagCandidates_valid) p (mem_sortDesc.mpr hp) hpc
  · intro h p hp
    unfold getLatestVersion at h
    exact findVersionTag_none h p (mem_sortDesc.mpr hp)
  · show findVersionTag repo commit (sortDesc (tagCandidates repo incPre)) =
      findVersionTag _ commit (sortDesc (tagCandidates (Repo.mk (repo.tags.filter
        (fun t => (parseVersion (t.name.drop versionLead.length)).isSome))
        repo.mergeBase repo.rangeMessages) incPre))
    rw [← tagCandidates_drop_unparseable]
    exact (findVersionTag_congr repo
      (repo.tags.filter (fun t => (parseVersion (t.name.drop versionLead.length)).isSome))
      commit (sortDesc (tagCandidates repo incPre))).symm

theorem claim_C1_witness :
    (∃ tag ∈ repoEx.tags, parseVersion (tag.name.drop versionLead.length) =
        some ⟨2,0,0,none,none⟩ ∧ tag.commit = 2 ∧
        (truthy (⟨2,0,0,none,none⟩ : Version).prerelease && !false) = false) ∧
    repoEx.mergeBase 2 5 = [2] ∧
    (∀ p ∈ tagCandidates repoEx false, repoEx.mergeBase p.2 5 = [p.2] →
      vcmp p.1 ⟨2,0,0,none,none⟩ ≠ .gt) :=
  (claim_C1 repoEx 5 false).1 ⟨2,0,0,none,none⟩ 2 (by decide)

/-- C2: corrected. The update-type enum has no NONE member and the fold of
`_get_version_update_type` starts at PATCH, so a range in which no line
matches any rule yields PATCH, not NONE; bumping by that severity increments
the patch component, so the computed next version differs from the previous
version instead of equalling it. -/
theorem claim_C2 (messages : List (List String)) (v : Version)
    (h : ∀ msg ∈ messages, ∀ line ∈ msg, ∀ r ∈ versionUpdateRegexes,
      r.matcher line = none) :
    getVersionUpdateType messages = .PATCH ∧
    bumpVersion v (getVersionUpdateType messages) =
      ⟨v.major, v.minor, v.patch + 1, none, none⟩ ∧
    (bumpVersion v (getVersionUpdateType messages)).patch ≠ v.patch := by
  have hp := getVersionUpdateType_no_match messages h
  rw [hp]
  exact ⟨rfl, rfl, by simp [bumpVersion]⟩

theorem claim_C2_witness :
    getVersionUpdateType [["chore: tidy"]] = .PATCH ∧
    bumpVersion ⟨1,2,3,none,none⟩ (getVersionUpdateType [["chore: tidy"]]) =
      ⟨1,2,3+1,none,none⟩ ∧
    (bumpVersion ⟨1,2,3,none,none⟩ (getVersionUpdateType [["chore: tidy"]])).patch ≠ 3 :=
  claim_C2 [["chore: tidy"]] ⟨1,2,3,none,none⟩ (by decide)

theorem claim_C2_counterexample :
    getVersionUpdateType [["chore: tidy"]] = .PATCH ∧
    bumpVersion ⟨1,2,3,none,none⟩ (getVersionUpdateType [["chore: tidy"]]) ≠
      ⟨1,2,3,none,none⟩ := by decide

/-- C3: corrected. In the SEMANTIC dev style the reset of the nested version
to `0.0.1` on a base change only happens when the severity of the commits
since the previous dev tag is above PATCH: the branch condition
`INCREMENTING or dev_version_update_type == PATCH` sends a PATCH-severity run
through the incrementing branch instead, so the reset is not independent of
that severity. When the severity is above PATCH and the base changed, the
result is the new base with prerelease `<suffix>.0.0.1` (never `0.0.0`). -/
theorem claim_C3 (lm ld : Version) (vut dvut : VersionUpdateEnum) (suffix : String)
    (hdv : dvut ≠ .PATCH)
    (hbase : ¬((bumpVersion lm vut).major = ld.major ∧
      (bumpVersion lm vut).minor = ld.minor ∧ (bumpVersion lm vut).patch = ld.patch)) :
    computeDevVersion lm ld vut dvut suffix .SEMANTIC =
      some (withPre (bumpVersion lm vut) (suffix ++ ".0.0.1")) ∧
    (withPre (bumpVersion lm vut) (suffix ++ ".0.0.1")).prerelease =
      some (suffix ++ ".0.0.1") :=
  ⟨computeDev_semantic_base_change lm ld vut dvut suffix hdv hbase, rfl⟩

theorem claim_C3_witness :
    computeDevVersion ⟨1,2,0,none,none⟩ ⟨1,2,0,some "dev.0.0.5",none⟩ .MINOR .MINOR "dev"
      .SEMANTIC = some (withPre (bumpVersion ⟨1,2,0,none,none⟩ .MINOR) ("dev" ++ ".0.0.1")) ∧
    withPre (bumpVersion ⟨1,2,0,none,none⟩ .MINOR) ("dev" ++ ".0.0.1") =
      ⟨1,3,0,some "dev.0.0.1",none⟩ :=
  ⟨(claim_C3 ⟨1,2,0,none,none⟩ ⟨1,2,0,some "dev.0.0.5",none⟩ .MINOR .MINOR "dev"
      (by decide) (by decide)).1, by decide⟩

theorem claim_C3_counterexample :
    computeDevVersion ⟨1,2,0,none,none⟩ ⟨1,2,0,some "dev.0.0.5",none⟩ .MINOR .PATCH "dev"
      .SEMANTIC = some ⟨1,3,0,some "dev.1",none⟩ ∧
    some (⟨1,3,0,some "dev.1",none⟩ : Version) ≠ some (⟨1,3,0,some "dev.0.0.1",none⟩ : Version) := by
  decide

/-- C4: the defensive fallback of the SEMANTIC computation never rescues a
failed parse. When the joined trailing components do not parse, the fallback
parses `bits[0]` alone, but a single dot-separated identifier contains no dot
and therefore never parses as a three-part version: the whole computation
fails (`none`, an uncaught `ValueError` in Python) instead of producing a
next dev version as the spec promises. -/
theorem claim_C4 (lm ld : Version) (vut dvut : VersionUpdateEnum) (suffix : String)
    (hdv : dvut ≠ .PATCH)
    (hbase : (bumpVersion lm vut).major = ld.major ∧
      (bumpVersion lm vut).minor = ld.minor ∧ (bumpVersion lm vut).patch = ld.patch)
    (hjoin : parseVersion (joinDotStr (((splitSep '.' ((ld.prerelease.getD "").data)).map
      (fun g => (⟨g⟩ : String))).drop 1)) = none) :
    computeDevVersion lm ld vut dvut suffix .SEMANTIC = none := by
  simp only [computeDevVersion]
  rcases htr : truthy ld.prerelease
  · simp only [Bool.false_eq_true, if_false]
    rw [if_neg (by simp [hdv])]
    rw [if_pos (by simp [withPre, Prod.mk.injEq, hbase.1, hbase.2.1, hbase.2.2])]
    rfl
  · simp only [if_true]
    rw [if_neg (by simp [hdv])]
    rw [if_pos ?hbc]
    case hbc =>
      simp only [Prod.mk.injEq]
      refine ⟨?_, ?_, ?_⟩ <;>
        (split <;> (try split) <;> simp [withPre, hbase.1, hbase.2.1, hbase.2.2])
    rw [hjoin]
    rcases hb : ((splitSep '.' ((ld.prerelease.getD "").data)).map
        (fun g => (⟨g⟩ : String))).drop 1 with _ | ⟨b, brest⟩
    · rfl
    · have hbmem : b ∈ (splitSep '.' ((ld.prerelease.getD "").data)).map
          (fun g => (⟨g⟩ : String)) :=
        List.mem_of_mem_drop (hb ▸ List.mem_cons_self b brest)
      obtain ⟨g, hgmem, hgb⟩ := List.mem_map.mp hbmem
      have hbp : parseVersion b = none := by
        rw [← hgb]
        exact parseVC_no_dot (splitSep_mem_no_sep g hgmem)
      show (match parseVersion b with
        | some pv => some (withPre (bumpVersion lm vut)
            (suffix ++ "." ++ versionToString (bumpVersion pv dvut)))
        | none => none) = none
      rw [hbp]

theorem claim_C4_witness :
    computeDevVersion ⟨1,2,0,none,none⟩ ⟨1,3,0,some "dev.0.1",none⟩ .MINOR .MINOR "dev"
      .SEMANTIC = none :=
  claim_C4 ⟨1,2,0,none,none⟩ ⟨1,3,0,some "dev.0.1",none⟩ .MINOR .MINOR "dev"
    (by decide) (by decide) (by decide)

/-- C5: when the resolved target commit already carries the latest resolved
version tag, both the main and the dev flow stop with the AlreadyTagged
error: the invocation returns the error instead of a list of tag operations,
so no tag is created, deleted or rebound. -/
theorem claim_C5 (repo : Repo) (mainHead devHead : CommitId) (suffix : String)
    (style : DevVersionStyle) (incSh : Bool) :
    (∀ v, getLatestVersion repo mainHead false = some (v, mainHead) →
      addMainTags repo mainHead incSh = .error .alreadyTagged) ∧
    (∀ lm c v, getLatestVersion repo mainHead false = some (lm, c) →
      getLatestVersion repo devHead true = some (v, devHead) →
      addDevTags repo mainHead devHead suffix style incSh = .error .alreadyTagged) := by
  constructor
  · intro v h
    unfold addMainTags
    rw [h]
    simp
  · intro lm c v h1 h2
    unfold addDevTags
    rw [h1, h2]
    simp

theorem claim_C5_witness :
    addMainTags repoEx 2 true = .error .alreadyTagged ∧
    addDevTags repoEx 5 2 "dev" .INCREMENTING true = .error .alreadyTagged :=
  ⟨(claim_C5 repoEx 2 2 "dev" .INCREMENTING true).1 ⟨2,0,0,none,none⟩ (by decide),
   (claim_C5 repoEx 5 2 "dev" .INCREMENTING true).2 ⟨2,0,0,none,none⟩ 2 ⟨2,0,0,none,none⟩
     (by decide) (by decide)⟩

/-- C6: on the lines the group-less breaking-change rule does not match, the
per-line classifier is last-match-wins, so a `!`-suffixed line classifies
MAJOR with its fix/feat category and the literally captured scope; but a line
matched by a rule whose pattern has no scope group — the breaking-change rule
— makes the loop raise IndexError on `match.group("scope")` instead of
keeping the classification, so `generate_changelog` dies on such a line. -/
theorem claim_C6 :
    (∀ line, (∀ r ∈ versionUpdateRegexes, r.hasScope = false → r.matcher line = none) →
      classifyLine line = some (lastMatchClassify line)) ∧
    (∀ line, ∀ r ∈ versionUpdateRegexes, r.matcher line ≠ none → r.hasScope = false →
      classifyLine line = none) ∧
    classifyLine "fix(api)!: breaking fix" = some (some (.MAJOR, .FIX, some "api")) ∧
    classifyLine "feat!: breaking feature" = some (some (.MAJOR, .FEATURE, none)) ∧
    classifyLine "fix: a fix" = some (some (.PATCH, .FIX, none)) ∧
    classifyLine "feat(api): new api" = some (some (.MINOR, .FEATURE, some "api")) ∧
    classifyLine "FEAT(Scope): x" = some (some (.MINOR, .FEATURE, some "Scope")) ∧
    matchBreakingRule "breaking change: redo" = some none ∧
    classifyLine "breaking change: redo" = none := by
  refine ⟨?_, ?_, by decide, by decide, by decide, by decide, by decide, by decide, by decide⟩
  · intro line hok
    unfold classifyLine lastMatchClassify
    rw [foldl_classify_findSome line versionUpdateRegexes hok none]
    rcases h : versionUpdateRegexes.reverse.findSome? (fun r =>
        (r.matcher line).map fun scope => (r.versionUpdate, r.commitType, scope)) with _ | x <;>
      rw [h]
  · intro line r hr hm hs
    exact classify_crash line r hm hs versionUpdateRegexes hr (some none)

theorem blockOps_name (existing : List Tag) (commit : CommitId) (m : String) :
    ∀ op ∈ ((if m ∈ existing.map Tag.name then
        [TagOp.deleteLocal m, TagOp.deleteRemote m] else []) ++ [TagOp.create m commit]),
      tagOpName op = m := by
  intro op hop
  rcases List.mem_append.mp hop with hdel | hcre
  · split at hdel
    · rcases List.mem_cons.mp hdel with rfl | hdel2
      · rfl
      · rcases List.mem_cons.mp hdel2 with rfl | hdel3
        · rfl
        · exact absurd hdel3 (List.not_mem_nil _)
    · exact absurd hdel (List.not_mem_nil _)
  · rcases List.mem_cons.mp hcre with rfl | hcre2
    · rfl
    · exact absurd hcre2 (List.not_mem_nil _)

theorem tagOps_names (existing : List Tag) (commit : CommitId) (names : List String) :
    ∀ op ∈ names.flatMap (fun tagName =>
      (if tagName ∈ existing.map Tag.name then
        [TagOp.deleteLocal tagName, TagOp.deleteRemote tagName] else []) ++
      [TagOp.create tagName commit]), tagOpName op ∈ names := by
  intro op hop
  rw [List.mem_flatMap] at hop
  obtain ⟨n, hn, hopin⟩ := hop
  rw [blockOps_name existing commit n op hopin]
  exact hn

theorem tagBlocks_lookup_aux (existing : List Tag) (commit : CommitId) :
    ∀ (names : List String) (s : List Tag), names.Nodup →
    ∀ n ∈ names, (n ∉ existing.map Tag.name → lookupTag s n = none) →
    lookupTag (applyTagOps s (names.flatMap (fun tagName =>
      (if tagName ∈ existing.map Tag.name then
        [TagOp.deleteLocal tagName, TagOp.deleteRemote tagName] else []) ++
      [TagOp.create tagName commit]))) n = some commit := by
  intro names
  induction names with
  | nil =>
    intro s _ n hn
    exact absurd hn (List.not_mem_nil n)
  | cons m ms ih =>
    intro s hnd n hn hs
    rw [List.flatMap_cons, applyTagOps_append]
    rcases List.mem_cons.mp hn with rfl | hnm
    · have hno : ∀ op ∈ ms.flatMap (fun tagName =>
          (if tagName ∈ existing.map Tag.name then
            [TagOp.deleteLocal tagName, TagOp.deleteRemote tagName] else []) ++
          [TagOp.create tagName commit]), tagOpName op ≠ n := by
        intro op hop hcon
        have hmem := tagOps_names existing commit ms op hop
        rw [hcon] at hmem
        exact (List.nodup_cons.mp hnd).1 hmem
      rw [lookupTag_applyTagOps_other hno]
      exact lookupTag_block hs
    · have hne : n ≠ m := by
        intro hcon
        exact (List.nodup_cons.mp hnd).1 (hcon ▸ hnm)
      apply ih _ (List.nodup_cons.mp hnd).2 n hnm
      intro hnex
      have hno : ∀ op ∈ ((if m ∈ existing.map Tag.name then
          [TagOp.deleteLocal m, TagOp.deleteRemote m] else []) ++
          [TagOp.create m commit]), tagOpName op ≠ n := by
        intro op hop hcon
        rw [blockOps_name existing commit m op hop] at hcon
        exact hne hcon.symm
      rw [lookupTag_applyTagOps_other hno]
      exact hs hnex

/-- C7: with shorter versions enabled, publishing 2.1.0 computes exactly the
names `v2.1.0`, `v2.1`, `v2`; and for every computed name (when the computed
names are distinct), after applying the emitted tag operations the name is
bound to the new commit: an existing tag of that name is deleted (locally and
remotely) before recreation, a missing one is created directly, so any
pre-existing binding is overwritten regardless of its previous target. -/
theorem claim_C7 (existing : List Tag) (commit : CommitId) (v : Version)
    (incSh : Bool) :
    getVersionStrings true ⟨2,1,0,none,none⟩ = ["v2.1.0", "v2.1", "v2"] ∧
    ((getVersionStrings incSh v).Nodup →
      ∀ n ∈ getVersionStrings incSh v,
        lookupTag (applyTagOps existing
          (addVersionTagsToCommit existing commit v incSh)) n = some commit) := by
  refine ⟨by decide, ?_⟩
  intro hnd n hn
  unfold addVersionTagsToCommit
  exact tagBlocks_lookup_aux existing commit (getVersionStrings incSh v) existing hnd n hn
    (fun hnex => lookupTag_not_mem hnex)

theorem claim_C7_witness :
    lookupTag (applyTagOps [⟨"v2.1", 7⟩] (addVersionTagsToCommit [⟨"v2.1", 7⟩] 9
      ⟨2,1,0,none,none⟩ true)) "v2.1" = some 9 :=
  (claim_C7 [⟨"v2.1", 7⟩] 9 ⟨2,1,0,none,none⟩ true).2 (by decide) "v2.1" (by decide)

/-- C8: under the INCREMENTING dev policy, with the previous dev prerelease a
flat `<suffix>.<n>` counter: if the newly bumped base equals the previous dev
tag's base, the counter is incremented to `<suffix>.<n+1>`; if the base
changed, the new base carries `<suffix>.1` — the counter restarts at its
first post-bump value, never re-emitting 0. -/
theorem claim_C8 (lm ld : Version) (vut dvut : VersionUpdateEnum) (suffix : String)
    (n : Nat) (hpre : ld.prerelease = some (suffix ++ "." ++ natStr n))
    (hdot : ('.' : Char) ∉ suffix.data) (hne : suffix ≠ "") :
    (((bumpVersion lm vut).major = ld.major ∧ (bumpVersion lm vut).minor = ld.minor ∧
        (bumpVersion lm vut).patch = ld.patch) →
      computeDevVersion lm ld vut dvut suffix .INCREMENTING =
        some ⟨ld.major, ld.minor, ld.patch, some (suffix ++ "." ++ natStr (n + 1)), none⟩) ∧
    (¬((bumpVersion lm vut).major = ld.major ∧ (bumpVersion lm vut).minor = ld.minor ∧
        (bumpVersion lm vut).patch = ld.patch) →
      computeDevVersion lm ld vut dvut suffix .INCREMENTING =
        some ⟨(bumpVersion lm vut).major, (bumpVersion lm vut).minor,
          (bumpVersion lm vut).patch, some (suffix ++ ".1"), none⟩) :=
  computeDev_incrementing lm ld vut dvut suffix n hpre hdot hne

theorem claim_C8_witness :
    (computeDevVersion ⟨1,1,0,none,none⟩ ⟨1,2,0,some ("dev" ++ "." ++ natStr 3),none⟩
        .MINOR .PATCH "dev" .INCREMENTING =
      some ⟨1,2,0,some ("dev" ++ "." ++ natStr (3 + 1)),none⟩) ∧
    ("dev" ++ "." ++ natStr 3) = "dev.3" ∧ ("dev" ++ "." ++ natStr (3 + 1)) = "dev.4" :=
  ⟨(claim_C8 ⟨1,1,0,none,none⟩ ⟨1,2,0,some ("dev" ++ "." ++ natStr 3),none⟩
      .MINOR .PATCH "dev" 3 rfl (by decide) (by decide)).1 (by decide),
   by decide, by decide⟩

/-- C9: corrected. The scope formatter maps "fooBar" to "Foo Bar", "a_b-c" to
"A B C", "a,b" to "A, B" and "x/y" to "X/Y" as the spec says, but
"HTTPServer" maps to "Http Server", not "HTTP Server": Python's `.title()`
lowercases the non-initial letters of an acronym run after the word split. -/
theorem claim_C9 :
    split_scope_words "fooBar" = "Foo Bar" ∧
    split_scope_words "HTTPServer" = "Http Server" ∧
    split_scope_words "a_b-c" = "A B C" ∧
    split_scope_words "a,b" = "A, B" ∧
    split_scope_words "x/y" = "X/Y" := by
  refine ⟨by decide, by decide, by decide, by decide, by decide⟩

theorem claim_C9_counterexample :
    split_scope_words "HTTPServer" = "Http Server" ∧
    split_scope_words "HTTPServer" ≠ "HTTP Server" := by
  refine ⟨by decide, by decide⟩

/-- C10: corrected. When the previous dev version carries no prerelease, both
the previous and the newly bumped version are seeded (`<suffix>.0` under
INCREMENTING, `<suffix>.0.0.0` under SEMANTIC) before bumping, and the first
published INCREMENTING counter is 1, never 0. But the computation does not
always proceed: in the SEMANTIC style with severity above PATCH and an
unchanged base, the seeded previous version has no trailing components to
parse (`bits` is empty), and the code dies on `bits[0]` (IndexError) —
modelled as `none` — instead of producing a next dev version. -/
theorem claim_C10 (lm ld : Version) (vut dvut : VersionUpdateEnum) (suffix : String)
    (hpre : ld.prerelease = none) :
    (∃ r, computeDevVersion lm ld vut dvut suffix .INCREMENTING = some r ∧
      r.prerelease = some (suffix ++ ".1")) ∧
    (dvut = .PATCH →
      ∃ r, computeDevVersion lm ld vut dvut suffix .SEMANTIC = some r ∧
        r.prerelease = some (suffix ++ ".0.0.1")) ∧
    (dvut ≠ .PATCH →
      ¬((bumpVersion lm vut).major = ld.major ∧ (bumpVersion lm vut).minor = ld.minor ∧
          (bumpVersion lm vut).patch = ld.patch) →
      computeDevVersion lm ld vut dvut suffix .SEMANTIC =
        some (withPre (bumpVersion lm vut) (suffix ++ ".0.0.1"))) ∧
    (dvut ≠ .PATCH →
      ((bumpVersion lm vut).major = ld.major ∧ (bumpVersion lm vut).minor = ld.minor ∧
          (bumpVersion lm vut).patch = ld.patch) →
      computeDevVersion lm ld vut dvut suffix .SEMANTIC = none) :=
  computeDev_no_prerelease lm ld vut dvut suffix hpre

theorem claim_C10_witness :
    (∃ r, computeDevVersion ⟨1,1,0,none,none⟩ ⟨1,2,0,none,none⟩ .MINOR .MINOR "dev"
      .INCREMENTING = some r ∧ r.prerelease = some ("dev" ++ ".1")) ∧
    computeDevVersion ⟨1,1,0,none,none⟩ ⟨1,2,0,none,none⟩ .MINOR .MINOR "dev"
      .SEMANTIC = none :=
  ⟨(claim_C10 ⟨1,1,0,none,none⟩ ⟨1,2,0,none,none⟩ .MINOR .MINOR "dev" rfl).1,
   (claim_C10 ⟨1,1,0,none,none⟩ ⟨1,2,0,none,none⟩ .MINOR .MINOR "dev" rfl).2.2.2
     (by decide) (by decide)⟩

theorem claim_C10_counterexample :
    computeDevVersion ⟨1,1,0,none,none⟩ ⟨1,2,0,none,none⟩ .MINOR .MINOR "dev"
      .SEMANTIC = none := by decide
